import Mathlib

/-!
Verification of the path-tree building utilities of the repository:

* `src/superset-frontend/src/filters/components/Select/treeUtils.ts`
  (`buildTreeSelectData`, `normalizeTreeSelectValue`, `toSortedTree`,
  `createNode`)
* `src/superset-frontend/src/filters/components/TreeSelect/TreeSelectFilterPlugin.tsx`
  (`buildTreeData`, `ensureChild`)

Modelling conventions:

* JavaScript strings are modelled as `List Char` (`JStr`).  All string
  operations used by the code (`split`, `trim`, `includes`, template
  concatenation, `localeCompare`-based comparison) are given explicit
  structural definitions over `List Char`, so that every definition is
  executable and kernel-reducible.
* The `delimiter` parameter of `buildTreeSelectData` is modelled as a
  single character: every delimiter occurring in the repository (`'/'`
  default, and the `'/'` / `'.'` detected by `buildTreeData`) is a single
  character, and for a single-character separator JavaScript
  `String.prototype.split` coincides with `splitChar` below.
* A JavaScript object used as a string-keyed dictionary (`Record` in
  `treeUtils.ts`) and a `Map` (in `TreeSelectFilterPlugin.tsx`) both
  enumerate their entries in insertion order, and assigning to an existing
  key keeps its position.  Both are modelled by the insertion-ordered
  association list `NodeRecord`, with `getR` (lookup) and `setR`
  (in-place update, append when absent).
* The in-progress nodes of both builder variants carry exactly the fields
  `title`, `value`, `key` and a child dictionary (`InternalNode.children`
  models `children : Record<string, InternalNode>` of `treeUtils.ts` and
  `childrenMap : Map<string, MutableNode>` of the plugin; the plugin's
  dead `children: []` array, which is never read before `convertNode`
  rebuilds it, is not represented).  Both variants therefore share the
  internal type `InternalNode`.
* `Array.prototype.sort` with comparator
  `(a, b) => a.value.localeCompare(b.value)` is modelled as the stable
  sort `List.insertionSort` under the lexicographic code-point order
  `lexLe` on the `value` field (`localeCompare` is modelled as plain
  code-point comparison).
* JavaScript `number` values are modelled by `Int`; none of the verified
  code inspects a number beyond `typeof`.
-/

/-- JavaScript strings, modelled as their list of characters. -/
abbrev JStr := List Char

/-- Embed a Lean string literal as a `JStr`. -/
def js (s : String) : JStr := s.data

/-- JavaScript `String.prototype.split` with a single-character separator:
`splitChar d s` cuts `s` at every occurrence of `d`; the separators are not
part of the chunks, and `n` occurrences of `d` yield `n + 1` chunks
(so `split` of the empty string is `[""]`, exactly as in JavaScript). -/
def splitChar (d : Char) : JStr → List JStr
  | [] => [[]]
  | c :: rest =>
      if c = d then [] :: splitChar d rest
      else
        match splitChar d rest with
        | [] => [[c]]
        | chunk :: chunks => (c :: chunk) :: chunks

/-- JavaScript `String.prototype.trim`: remove leading and trailing
whitespace. -/
def trimJS (s : JStr) : JStr :=
  ((s.dropWhile Char.isWhitespace).reverse.dropWhile Char.isWhitespace).reverse

/-- JavaScript `Array.prototype.join` with a single-character separator,
as used by `parts.slice(0, index + 1).join(delimiter)`. -/
def joinD (d : Char) (parts : List JStr) : JStr :=
  List.intercalate [d] parts

/-- Lexicographic (code-point) order on strings; the model of a
non-positive result of `a.localeCompare(b)`. -/
def lexLe : JStr → JStr → Bool
  | [], _ => true
  | _ :: _, [] => false
  | a :: as, b :: bs => if a < b then true else if b < a then false else lexLe as bs

/-- The `value` field of a `TreeOption` in `treeUtils.ts`:
`string | number | null`. -/
inductive TOValue where
  | str (s : JStr)
  | num (n : Int)
  | null
  deriving DecidableEq, Repr

/-- `TreeOption` of `treeUtils.ts`: `{ label: string; value: string | number | null }`. -/
structure TreeOption where
  label : JStr
  value : TOValue
  deriving DecidableEq, Repr

mutual
/-- `InternalNode` of `treeUtils.ts` (also the plugin's `MutableNode`):
`{ title, value, key, children: Record<string, InternalNode> }`. -/
inductive InternalNode where
  | mk (title value key : JStr) (children : NodeRecord)
  deriving DecidableEq, Repr
/-- An insertion-ordered string-keyed dictionary of `InternalNode`s:
the model of both `Record<string, InternalNode>` and
`Map<string, MutableNode>`. -/
inductive NodeRecord where
  | nil
  | cons (k : JStr) (n : InternalNode) (rest : NodeRecord)
  deriving DecidableEq, Repr
end

def InternalNode.title : InternalNode → JStr
  | .mk t _ _ _ => t

def InternalNode.value : InternalNode → JStr
  | .mk _ v _ _ => v

def InternalNode.key : InternalNode → JStr
  | .mk _ _ k _ => k

def InternalNode.children : InternalNode → NodeRecord
  | .mk _ _ _ c => c

/-- Dictionary lookup (`cursor[part]`, `container.get(nodeValue)`). -/
def getR : NodeRecord → JStr → Option InternalNode
  | .nil, _ => none
  | .cons k n rest, q => if k = q then some n else getR rest q

/-- Dictionary write (`cursor[part] = …`, `container.set(nodeValue, …)`):
overwrite in place when the key exists, append at the end otherwise. -/
def setR : NodeRecord → JStr → InternalNode → NodeRecord
  | .nil, q, v => .cons q v .nil
  | .cons k n rest, q, v =>
      if k = q then .cons k v rest else .cons k n (setR rest q v)

/-- The keys of a dictionary, in insertion order. -/
def keysR : NodeRecord → List JStr
  | .nil => []
  | .cons k _ rest => k :: keysR rest

/-- Replace the `title` of a node (`cursor[part].title = option.label`). -/
def InternalNode.withTitle : InternalNode → JStr → InternalNode
  | .mk _ v k c, t => .mk t v k c

/-- Replace the `children` of a node (the net effect of mutating through
`cursor = cursor[part].children`). -/
def InternalNode.withChildren : InternalNode → NodeRecord → InternalNode
  | .mk t v k _, c => .mk t v k c

/-- `createNode` of `treeUtils.ts`:
`{ title, value, key: value, children: {} }`. -/
def createNode (title value : JStr) : InternalNode :=
  .mk title value value .nil

/-- The `parts.forEach` walk of `buildTreeSelectData`, one entry at a time.
`done` is the list of segments already consumed, so that
`joinD d (done ++ [part])` is `parts.slice(0, index + 1).join(delimiter)`.
At each depth the node keyed by the segment is looked up or created
(`createNode(part, pathValue)`); at the final segment its `title` is set to
the entry's label; then the walk descends into its `children`. -/
def insertParts (d : Char) (label : JStr) : List JStr → List JStr → NodeRecord → NodeRecord
  | _, [], m => m
  | done, part :: rest, m =>
      let pathValue := joinD d (done ++ [part])
      let node :=
        match getR m part with
        | some n => n
        | none => createNode part pathValue
      let node1 := if rest = [] then node.withTitle label else node
      let node2 := node1.withChildren
        (insertParts d label (done ++ [part]) rest node1.children)
      setR m part node2

/-- The body of `options.forEach` in `buildTreeSelectData`: skip non-string
values, skip values that are blank after trimming, split on the delimiter,
drop empty segments, skip when no segment remains, otherwise run the walk. -/
def processOption (d : Char) (m : NodeRecord) (o : TreeOption) : NodeRecord :=
  match o.value with
  | .str s =>
      let trimmed := trimJS s
      if trimmed = [] then m
      else
        let parts := (splitChar d trimmed).filter (fun p => p ≠ [])
        if parts = [] then m
        else insertParts d o.label [] parts m
  | _ => m

/-- The dictionary accumulated by `buildTreeSelectData` before
`toSortedTree` converts it  (the source's `root`). -/
def buildInternal (options : List TreeOption) (d : Char) : NodeRecord :=
  options.foldl (processOption d) .nil

mutual
/-- `TreeSelectDataNode` of `treeUtils.ts`. -/
inductive TreeSelectDataNode where
  | mk (title value key : JStr) (selectable : Bool) (children : TSForest)
  deriving DecidableEq, Repr
/-- A list of `TreeSelectDataNode` (the `TreeSelectDataNode[]` of the
source, given its own inductive so that recursion over trees is
structural). -/
inductive TSForest where
  | nil
  | cons (n : TreeSelectDataNode) (rest : TSForest)
  deriving DecidableEq, Repr
end

def TreeSelectDataNode.title : TreeSelectDataNode → JStr
  | .mk t _ _ _ _ => t

def TreeSelectDataNode.value : TreeSelectDataNode → JStr
  | .mk _ v _ _ _ => v

def TreeSelectDataNode.key : TreeSelectDataNode → JStr
  | .mk _ _ k _ _ => k

def TreeSelectDataNode.selectable : TreeSelectDataNode → Bool
  | .mk _ _ _ s _ => s

def TreeSelectDataNode.children : TreeSelectDataNode → TSForest
  | .mk _ _ _ _ c => c

def TSForest.ofList : List TreeSelectDataNode → TSForest
  | [] => .nil
  | n :: rest => .cons n (TSForest.ofList rest)

def TSForest.toList : TSForest → List TreeSelectDataNode
  | .nil => []
  | .cons n rest => n :: TSForest.toList rest

/-- The sort order of `toSortedTree`:
`(a, b) => a.value.localeCompare(b.value)`. -/
def nodeLe (a b : TreeSelectDataNode) : Prop :=
  lexLe a.value b.value = true

instance : DecidableRel nodeLe := fun _ _ =>
  inferInstanceAs (Decidable (_ = true))

mutual
/-- One node of `toSortedTree`'s output: `selectable` is always `true` and
the children are converted recursively.  In the source the dictionary is
first sorted and then each node converted
(`Object.values(nodeMap).sort(…).map(…)`); here each node is converted
first and the converted list sorted, which is the same function: the
comparator reads only the `value` field, which conversion preserves, and
`List.insertionSort` is stable, as is the sort of `Array.prototype.sort`. -/
def toSortedNode : InternalNode → TreeSelectDataNode
  | .mk t v k cs =>
      .mk t v k true (TSForest.ofList (List.insertionSort nodeLe (toSortedList cs)))
/-- The nodes of a dictionary (`Object.values`), each converted by
`toSortedNode`, still in insertion order. -/
def toSortedList : NodeRecord → List TreeSelectDataNode
  | .nil => []
  | .cons _ n rest => toSortedNode n :: toSortedList rest
end

/-- `toSortedTree` of `treeUtils.ts`. -/
def toSortedTree (m : NodeRecord) : TSForest :=
  TSForest.ofList (List.insertionSort nodeLe (toSortedList m))

/-- `buildTreeSelectData` of `treeUtils.ts` (the source's `delimiter`
parameter defaults to `'/'`; here it is always explicit). -/
def buildTreeSelectData (options : List TreeOption) (d : Char) : TSForest :=
  toSortedTree (buildInternal options d)

mutual
/-- `TreeNode` of `TreeSelectFilterPlugin.tsx`. -/
inductive TreeNode where
  | mk (key value title : JStr) (children : TNForest)
  deriving DecidableEq, Repr
/-- A list of `TreeNode`. -/
inductive TNForest where
  | nil
  | cons (n : TreeNode) (rest : TNForest)
  deriving DecidableEq, Repr
end

def TreeNode.key : TreeNode → JStr
  | .mk k _ _ _ => k

def TreeNode.value : TreeNode → JStr
  | .mk _ v _ _ => v

def TreeNode.title : TreeNode → JStr
  | .mk _ _ t _ => t

def TreeNode.children : TreeNode → TNForest
  | .mk _ _ _ c => c

def TNForest.toList : TNForest → List TreeNode
  | .nil => []
  | .cons n rest => n :: TNForest.toList rest

/-- The string a JavaScript template literal produces for `undefined`
(`` `${assembled}/${segment}` `` with `assembled === undefined`); kept for
faithfulness, though unreachable: in `'/'` mode `assembled` starts at `''`. -/
def undefinedStr : JStr := js "undefined"

/-- The `nextValue` computation of `buildTreeData`:
`delimiter === '/' ? `${assembled}/${segment}` : assembled ? `${assembled}.${segment}` : segment`.
`assembled : Option JStr` models the `string | undefined` variable
(`none` = `undefined`); `some []` (the empty string) is falsy in the
JavaScript conditional, hence the `a = []` test. -/
def nextVal (d : Char) (assembled : Option JStr) (seg : JStr) : JStr :=
  if d = '/' then
    (match assembled with | some a => a | none => undefinedStr) ++ '/' :: seg
  else
    match assembled with
    | some a => if a = [] then seg else a ++ '.' :: seg
    | none => seg

/-- `ensureChild` of `TreeSelectFilterPlugin.tsx`, as used at top level for
a path with no segments: reuse the node keyed by `nodeValue` when present,
otherwise create `{ key: nodeValue, value: nodeValue, title, childrenMap: new Map() }`
and append it. -/
def ensureChild (m : NodeRecord) (nodeValue title : JStr) : NodeRecord :=
  match getR m nodeValue with
  | some _ => m
  | none => setR m nodeValue (.mk title nodeValue nodeValue .nil)

/-- The `segments.forEach` walk of `buildTreeData`: at each segment compute
`nextValue`, look up or create the node keyed by `nextValue` (with `title`
the bare segment), and descend into its child map (`ensureChild` is the
lookup-or-create; its effect on the current map and the descent are written
as one functional update). -/
def insertSegs (d : Char) : Option JStr → List JStr → NodeRecord → NodeRecord
  | _, [], m => m
  | assembled, seg :: rest, m =>
      let nv := nextVal d assembled seg
      let node :=
        match getR m nv with
        | some n => n
        | none => InternalNode.mk seg nv nv .nil
      let node2 := node.withChildren (insertSegs d (some nv) rest node.children)
      setR m nv node2

/-- Per-entry delimiter detection of `buildTreeData`:
`path.includes('/') ? '/' : '.'`. -/
def detectDelimiter (path : JStr) : Char :=
  if path.contains '/' then '/' else '.'

/-- The body of `values.forEach` in `buildTreeData`: detect the delimiter,
split into non-empty segments, insert a degenerate root for a path with no
segments, otherwise walk the segments with `assembled` starting at `''`
for `'/'` and `undefined` for `'.'`. -/
def processPath (m : NodeRecord) (path : JStr) : NodeRecord :=
  let d := detectDelimiter path
  let segments := (splitChar d path).filter (fun p => p ≠ [])
  if segments = [] then ensureChild m path path
  else insertSegs d (if d = '/' then some [] else none) segments m

/-- The root map accumulated by `buildTreeData` (the source's `roots`). -/
def buildTreeDataInternal (values : List JStr) : NodeRecord :=
  values.foldl processPath .nil

mutual
/-- `convertNode` of `buildTreeData`: strip the child map into an ordered
children list. -/
def convertNode : InternalNode → TreeNode
  | .mk t v k cs => .mk k v t (convertForest cs)
/-- `[...map.values()].map(convertNode)`, in insertion order. -/
def convertForest : NodeRecord → TNForest
  | .nil => .nil
  | .cons _ n rest => .cons (convertNode n) (convertForest rest)
end

/-- `buildTreeData` of `TreeSelectFilterPlugin.tsx`. -/
def buildTreeData (values : List JStr) : TNForest :=
  convertForest (buildTreeDataInternal values)

/-- A JavaScript value as far as `normalizeTreeSelectValue` can observe it:
`undefined`, `null`, a string, a number, an array, or any other shape
(booleans and objects, which the function treats alike). -/
inductive JSVal where
  | undef
  | null
  | str (s : JStr)
  | num (n : Int)
  | bool (b : Bool)
  | arr (elems : List JSVal)
  | obj

/-- The result of `normalizeTreeSelectValue`:
`(string | number)[] | null | undefined`. -/
inductive NormResult where
  | undef
  | null
  | vals (xs : List JSVal)

/-- `typeof v === 'string' || typeof v === 'number'`. -/
def isStringOrNumber : JSVal → Bool
  | .str _ => true
  | .num _ => true
  | _ => false

/-- `normalizeTreeSelectValue` of `treeUtils.ts`, with the source's check
order: `undefined`, `null`, `Array.isArray`, scalar `string`/`number`,
otherwise `null`. -/
def normalizeTreeSelectValue : JSVal → NormResult
  | .undef => .undef
  | .null => .null
  | .arr xs => .vals (xs.filter isStringOrNumber)
  | .str s => .vals [.str s]
  | .num n => .vals [.num n]
  | _ => .null

/-- Keep a string or a number, drop any other element: the element-wise
reading of the spec's "sublist of its string-or-number elements". -/
def scalarOf : JSVal → Option JSVal
  | .str s => some (.str s)
  | .num n => some (.num n)
  | _ => none

/-- Modelled from the spec's words for `normalizeSelection` (claim C3):
`undefined → undefined`, `null → null`, a scalar string or number `x` to
the one-element list `[x]`, a list to the sublist of its
string-or-number elements in their original order, and any other shape to
`null`. -/
def normalizeSelectionSpec : JSVal → NormResult
  | .undef => .undef
  | .null => .null
  | .str s => .vals [.str s]
  | .num n => .vals [.num n]
  | .arr xs => .vals (xs.filterMap scalarOf)
  | .bool _ => .null
  | .obj => .null

mutual
/-- At every level below this node, siblings appear in ascending `lexLe`
order of their `value` field. -/
def sortedNodeOk : TreeSelectDataNode → Bool
  | .mk _ _ _ _ cs => sortedForestOk cs
/-- The nodes of this forest are in ascending `value` order and every
node's subtree is sorted as well. -/
def sortedForestOk : TSForest → Bool
  | .nil => true
  | .cons n rest => sortedNodeOk n && sortedTailOk n.value rest
/-- Helper for `sortedForestOk`: the forest is sorted and its first value
is at least `v`. -/
def sortedTailOk : JStr → TSForest → Bool
  | _, .nil => true
  | v, .cons n rest => lexLe v n.value && sortedNodeOk n && sortedTailOk n.value rest
end

/-- An entry that survives the guards of `buildTreeSelectData`'s loop that
claim C7 lists: its `value` is a string and is not blank after trimming. -/
def usableOption (o : TreeOption) : Bool :=
  match o.value with
  | .str s => decide (trimJS s ≠ [])
  | _ => false

/-- The part of `processPath` after the delimiter has been detected, with
the delimiter as a parameter. -/
def processPathWith (d : Char) (m : NodeRecord) (path : JStr) : NodeRecord :=
  let segments := (splitChar d path).filter (fun p => p ≠ [])
  if segments = [] then ensureChild m path path
  else insertSegs d (if d = '/' then some [] else none) segments m

/-- Spine induction for `NodeRecord` (the `induction` tactic cannot use the
multi-motive recursor of the mutual inductive; child nodes are treated as
opaque here). -/
def NodeRecord.inductionOn {P : NodeRecord → Prop}
    (nil : P .nil)
    (cons : ∀ (k : JStr) (n : InternalNode) (rest : NodeRecord), P rest → P (.cons k n rest)) :
    ∀ m : NodeRecord, P m
  | .nil => nil
  | .cons k n rest => cons k n rest (NodeRecord.inductionOn nil cons rest)

/-- Follow a list of dictionary keys from a root dictionary down through
`children`; `findPath m [k₁, …, kⱼ]` is the node the builders' walk reaches
after consuming the keys `k₁ … kⱼ`. -/
def findPath : NodeRecord → List JStr → Option InternalNode
  | _, [] => none
  | m, [k] => getR m k
  | m, k :: k2 :: rest =>
      match getR m k with
      | none => none
      | some n => findPath n.children (k2 :: rest)

mutual
/-- Invariant of the plugin's maps: a node stored under map key `k` has
`value = k` and `key = k`, recursively. -/
def kvOkNode : JStr → InternalNode → Bool
  | k, .mk _ v key cs => decide (v = k) && decide (key = k) && kvOkForest cs
def kvOkForest : NodeRecord → Bool
  | .nil => true
  | .cons k n rest => kvOkNode k n && kvOkForest rest
end

mutual
/-- Invariant of `buildTreeSelectData`'s dictionary: a node stored under
segment key `k` below the already-consumed segments `done` has
`value = joinD d (done ++ [k])` — the join of the segments leading to it,
with no extra leading or trailing delimiter — and `key = value`,
recursively. -/
def valsOkNode : Char → List JStr → JStr → InternalNode → Bool
  | d, done, k, .mk _ v key cs =>
      decide (v = joinD d (done ++ [k])) && decide (key = v) &&
        valsOkForest d (done ++ [k]) cs
def valsOkForest : Char → List JStr → NodeRecord → Bool
  | _, _, .nil => true
  | d, done, .cons k n rest => valsOkNode d done k n && valsOkForest d done rest
end

mutual
/-- Keys are pairwise distinct at this level and in every child map. -/
def nodupKeysNode : InternalNode → Bool
  | .mk _ _ _ cs => nodupKeysForest cs
def nodupKeysForest : NodeRecord → Bool
  | .nil => true
  | .cons k n rest =>
      decide (k ∉ keysR rest) && nodupKeysNode n && nodupKeysForest rest
end

/-- The `value` fields of the nodes at one level of a dictionary, in
insertion order. -/
def levelValuesR : NodeRecord → List JStr
  | .nil => []
  | .cons _ n rest => n.value :: levelValuesR rest

/-- The `value` fields at one level of a `TSForest`, in order. -/
def levelValuesTS : TSForest → List JStr
  | .nil => []
  | .cons n rest => n.value :: levelValuesTS rest

mutual
/-- Below this node, no two siblings share a `value`. -/
def distinctSibNode : TreeSelectDataNode → Bool
  | .mk _ _ _ _ cs => decide (levelValuesTS cs).Nodup && distinctSibNodes cs
/-- Every node of the forest satisfies `distinctSibNode`. -/
def distinctSibNodes : TSForest → Bool
  | .nil => true
  | .cons n rest => distinctSibNode n && distinctSibNodes rest
end

/-- No two siblings anywhere in the forest (the root level included) share
a `value`. -/
def distinctSiblingsTS (f : TSForest) : Bool :=
  decide (levelValuesTS f).Nodup && distinctSibNodes f

/-- The `value` fields at one level of a `TNForest`, in order. -/
def levelValuesTN : TNForest → List JStr
  | .nil => []
  | .cons n rest => n.value :: levelValuesTN rest

mutual
/-- Below this plugin node, no two siblings share a `value`. -/
def distinctSibNodeTN : TreeNode → Bool
  | .mk _ _ _ cs => decide (levelValuesTN cs).Nodup && distinctSibNodesTN cs
/-- Every node of the plugin forest satisfies `distinctSibNodeTN`. -/
def distinctSibNodesTN : TNForest → Bool
  | .nil => true
  | .cons n rest => distinctSibNodeTN n && distinctSibNodesTN rest
end

/-- No two siblings anywhere in the plugin forest (the root level
included) share a `value`. -/
def distinctSiblingsTN (f : TNForest) : Bool :=
  decide (levelValuesTN f).Nodup && distinctSibNodesTN f

/-- A plugin root value of the `'/'` family: a leading `'/'` followed by a
non-empty slash-free segment.  Exactly the root values `insertSegs` writes
in `'/'` mode; the only root nodes whose `title` can differ from their
`value`. -/
def slashRootShape : JStr → Bool
  | [] => false
  | c :: seg => decide (c = '/') && decide (seg ≠ []) && decide ('/' ∉ seg)

/-- Top-level invariant of the plugin's root map: every root node either
has `title = value` (degenerate roots and `'.'`-family roots) or is a
`'/'`-family root. -/
def rootShapeOk : NodeRecord → Bool
  | .nil => true
  | .cons _ n rest =>
      (decide (n.title = n.value) || slashRootShape n.value) && rootShapeOk rest

/-- The sequence of `nextValue`s computed by `buildTreeData`'s walk over a
segment list, starting from a given `assembled` state. -/
def assembledVals (d : Char) : Option JStr → List JStr → List JStr
  | _, [] => []
  | asm, seg :: rest =>
      nextVal d asm seg :: assembledVals d (some (nextVal d asm seg)) rest

/-- The non-empty segments of a raw path under its detected delimiter. -/
def segsOf (p : JStr) : List JStr :=
  (splitChar (detectDelimiter p) p).filter (fun q => q ≠ [])

/-- The initial `assembled` state of `buildTreeData`'s walk:
`''` for `'/'`, `undefined` for `'.'`. -/
def initAsm (p : JStr) : Option JStr :=
  if detectDelimiter p = '/' then some [] else none

/-- The node values `buildTreeData`'s walk visits for the path `p`. -/
def walkVals (p : JStr) : List JStr :=
  assembledVals (detectDelimiter p) (initAsm p) (segsOf p)

/-- The value claim C1 must assign to the walk node of depth `j - 1`, as
amended: the join of the first `j` segments, preceded by a `'/'` exactly
for slash-delimited paths. -/
def amendedPathValue (p : JStr) (j : Nat) : JStr :=
  if '/' ∈ p then '/' :: joinD '/' ((segsOf p).take j)
  else joinD '.' ((segsOf p).take j)

/-- The non-empty segments `buildTreeSelectData` derives from a string
entry value. -/
def partsOfStr (d : Char) (s : JStr) : List JStr :=
  (splitChar d (trimJS s)).filter (fun q => q ≠ [])

/-- The segment list an entry contributes to `buildTreeSelectData`, when
its value is a string (`none` otherwise). -/
def partsOfOpt (d : Char) (o : TreeOption) : Option (List JStr) :=
  match o.value with
  | .str s => some (partsOfStr d s)
  | _ => none

mutual
/-- Node equivalence for claim C4: equal `value` and `key`, equivalent
child dictionaries; `title` (the only field the claim excludes) is free. -/
inductive NEquiv : InternalNode → InternalNode → Prop where
  | mk : ∀ (t₁ t₂ v key : JStr) (c₁ c₂ : NodeRecord),
      FEquiv c₁ c₂ → NEquiv (.mk t₁ v key c₁) (.mk t₂ v key c₂)
/-- Dictionary equivalence for claim C4: the same keys up to order, with
equivalent nodes under every common key. -/
inductive FEquiv : NodeRecord → NodeRecord → Prop where
  | mk : ∀ (m₁ m₂ : NodeRecord),
      (keysR m₁).Perm (keysR m₂) →
      (∀ (k : JStr) (n₁ n₂ : InternalNode),
        getR m₁ k = some n₁ → getR m₂ k = some n₂ → NEquiv n₁ n₂) →
      FEquiv m₁ m₂
end

/-- The node `insertParts` stores at its first segment, as a function of
the current dictionary. -/
def walkNode (d : Char) (label : JStr) (done : List JStr) (part : JStr)
    (rest : List JStr) (m : NodeRecord) : InternalNode :=
  match getR m part with
  | none =>
      .mk (if rest = [] then label else part)
        (joinD d (done ++ [part])) (joinD d (done ++ [part]))
        (insertParts d label (done ++ [part]) rest .nil)
  | some (.mk t v key cs) =>
      .mk (if rest = [] then label else t) v key
        (insertParts d label (done ++ [part]) rest cs)

/-- The node one `insertSegs` step stores at its assembled value, as a
function of the current dictionary. -/
def segNode (d : Char) (asm : Option JStr) (seg : JStr) (rest : List JStr)
    (m : NodeRecord) : InternalNode :=
  match getR m (nextVal d asm seg) with
  | none =>
      .mk seg (nextVal d asm seg) (nextVal d asm seg)
        (insertSegs d (some (nextVal d asm seg)) rest .nil)
  | some (.mk t v key cs) =>
      .mk t v key (insertSegs d (some (nextVal d asm seg)) rest cs)

/-- The segment list `processPath` effectively walks: the detected
segments, or the whole path as a single degenerate segment. -/
def pathSegsEff (p : JStr) : List JStr :=
  match segsOf p with
  | [] => [p]
  | l => l

/-- The delimiter `processPath` effectively walks with (`'.'` in the
degenerate case, where it is irrelevant). -/
def pathDelimEff (p : JStr) : Char :=
  match segsOf p with
  | [] => '.'
  | _ => detectDelimiter p

/-- The initial `assembled` state `processPath` effectively walks with. -/
def pathAsmEff (p : JStr) : Option JStr :=
  match segsOf p with
  | [] => none
  | _ => initAsm p

mutual
/-- The (parent value, value, key) triples of a node and its subtree: the
node set with its parent–child relationships, `title` and sibling order
excluded. -/
def edgesNodeR : JStr → InternalNode → List (JStr × JStr × JStr)
  | parent, .mk _ v key cs => (parent, v, key) :: edgesForestR v cs
/-- The edge triples of every node of a dictionary. -/
def edgesForestR : JStr → NodeRecord → List (JStr × JStr × JStr)
  | _, .nil => []
  | parent, .cons _ n rest => edgesNodeR parent n ++ edgesForestR parent rest
end

/-- Remove the binding of a key from a dictionary. -/
def eraseR : NodeRecord → JStr → NodeRecord
  | .nil, _ => .nil
  | .cons k n rest, q => if k = q then rest else .cons k n (eraseR rest q)

mutual
/-- The (parent value, value, key) triples of an output `TreeNode` and its
subtree. -/
def edgesNodeTN : JStr → TreeNode → List (JStr × JStr × JStr)
  | parent, .mk key v _ cs => (parent, v, key) :: edgesForestTN v cs
/-- The edge triples of every node of a `TNForest`. -/
def edgesForestTN : JStr → TNForest → List (JStr × JStr × JStr)
  | _, .nil => []
  | parent, .cons n rest => edgesNodeTN parent n ++ edgesForestTN parent rest
end

mutual
/-- The (parent value, value, key) triples of an output
`TreeSelectDataNode` and its subtree. -/
def edgesNodeTS : JStr → TreeSelectDataNode → List (JStr × JStr × JStr)
  | parent, .mk _ v key _ cs => (parent, v, key) :: edgesForestTS v cs
/-- The edge triples of every node of a `TSForest`. -/
def edgesForestTS : JStr → TSForest → List (JStr × JStr × JStr)
  | _, .nil => []
  | parent, .cons n rest => edgesNodeTS parent n ++ edgesForestTS parent rest
end

/-- The node set of a `buildTreeData` output: every node's
(parent value, value, key), the roots' parent marked by the empty
string. -/
def edgesTN (f : TNForest) : List (JStr × JStr × JStr) :=
  edgesForestTN [] f

/-- The node set of a `buildTreeSelectData` output: every node's
(parent value, value, key), the roots' parent marked by the empty
string. -/
def edgesTS (f : TSForest) : List (JStr × JStr × JStr) :=
  edgesForestTS [] f

lemma filter_isStringOrNumber_eq_filterMap (xs : List JSVal) :
    xs.filter isStringOrNumber = xs.filterMap scalarOf := by
  induction xs with
  | nil => rfl
  | cons x xs ih => cases x <;> simp [List.filter, List.filterMap, isStringOrNumber, scalarOf, ih]

/-- Claim C3: `normalizeTreeSelectValue` maps `undefined` to `undefined`,
`null` to `null`, a scalar string or number `x` to `[x]`, a list to the
sublist of its string-or-number elements in their original order, and any
other input shape to `null` — that is, it coincides with the function the
spec describes, on every input shape. -/
theorem claim_C3 (v : JSVal) :
    normalizeTreeSelectValue v = normalizeSelectionSpec v := by
  cases v <;>
    simp [normalizeTreeSelectValue, normalizeSelectionSpec,
      filter_isStringOrNumber_eq_filterMap]

lemma lexLe_refl (a : JStr) : lexLe a a = true := by
  induction a with
  | nil => rfl
  | cons c a ih => simp [lexLe, ih]

lemma lexLe_total (a b : JStr) : lexLe a b = true ∨ lexLe b a = true := by
  induction a generalizing b with
  | nil => left; rfl
  | cons c a ih =>
    cases b with
    | nil => right; rfl
    | cons e b =>
      rcases lt_trichotomy c e with h | h | h
      · left; simp [lexLe, h]
      · subst h
        rcases ih b with h2 | h2
        · left; simp [lexLe, h2, lt_irrefl]
        · right; simp [lexLe, h2, lt_irrefl]
      · right; simp [lexLe, h]

lemma lexLe_trans {a b c : JStr} (h1 : lexLe a b = true) (h2 : lexLe b c = true) :
    lexLe a c = true := by
  induction a generalizing b c with
  | nil => rfl
  | cons x a ih =>
    cases b with
    | nil => simp [lexLe] at h1
    | cons y b =>
      cases c with
      | nil => simp [lexLe] at h2
      | cons z c =>
        simp only [lexLe] at h1 h2 ⊢
        rcases lt_trichotomy x y with hxy | hxy | hxy
        · rcases lt_trichotomy y z with hyz | hyz | hyz
          · simp [lt_trans hxy hyz]
          · subst hyz; simp [hxy]
          · simp [hyz, not_lt_of_lt hyz] at h2
        · subst hxy
          rcases lt_trichotomy x z with hxz | hxz | hxz
          · simp [hxz]
          · subst hxz
            simp [lt_irrefl] at h1 h2 ⊢
            exact ih h1 h2
          · simp [hxz, not_lt_of_lt hxz] at h2
        · simp [hxy, not_lt_of_lt hxy] at h1

lemma lexLe_antisymm {a b : JStr} (h1 : lexLe a b = true) (h2 : lexLe b a = true) :
    a = b := by
  induction a generalizing b with
  | nil =>
    cases b with
    | nil => rfl
    | cons y b => simp [lexLe] at h2
  | cons x a ih =>
    cases b with
    | nil => simp [lexLe] at h1
    | cons y b =>
      simp only [lexLe] at h1 h2
      rcases lt_trichotomy x y with hxy | hxy | hxy
      · simp [hxy, not_lt_of_lt hxy] at h2
      · subst hxy
        simp [lt_irrefl] at h1 h2
        simp [ih h1 h2]
      · simp [hxy, not_lt_of_lt hxy] at h1

instance : IsTotal TreeSelectDataNode nodeLe :=
  ⟨fun a b => lexLe_total a.value b.value⟩

instance : IsTrans TreeSelectDataNode nodeLe :=
  ⟨fun _ _ _ h1 h2 => lexLe_trans h1 h2⟩

lemma sortedTailOk_ofList (l : List TreeSelectDataNode) (v : JStr)
    (hs : l.Sorted nodeLe) (hok : ∀ x ∈ l, sortedNodeOk x = true)
    (hv : ∀ x ∈ l, lexLe v x.value = true) :
    sortedTailOk v (TSForest.ofList l) = true := by
  induction l generalizing v with
  | nil => rfl
  | cons b t ih =>
    have hbt : t.Sorted nodeLe := (List.sorted_cons.mp hs).2
    have hble : ∀ x ∈ t, nodeLe b x := (List.sorted_cons.mp hs).1
    simp only [TSForest.ofList, sortedTailOk, Bool.and_eq_true]
    refine ⟨⟨hv b (by simp), hok b (by simp)⟩, ?_⟩
    exact ih b.value hbt (fun x hx => hok x (by simp [hx])) (fun x hx => hble x hx)

lemma sortedForestOk_ofList (l : List TreeSelectDataNode)
    (hs : l.Sorted nodeLe) (hok : ∀ x ∈ l, sortedNodeOk x = true) :
    sortedForestOk (TSForest.ofList l) = true := by
  cases l with
  | nil => rfl
  | cons b t =>
    have hbt : t.Sorted nodeLe := (List.sorted_cons.mp hs).2
    have hble : ∀ x ∈ t, nodeLe b x := (List.sorted_cons.mp hs).1
    simp only [TSForest.ofList, sortedForestOk, Bool.and_eq_true]
    exact ⟨hok b (by simp),
      sortedTailOk_ofList t b.value hbt (fun x hx => hok x (by simp [hx]))
        (fun x hx => hble x hx)⟩

mutual
lemma sortedNodeOk_toSortedNode : ∀ n : InternalNode, sortedNodeOk (toSortedNode n) = true
  | .mk t v k cs => by
    simp only [toSortedNode, sortedNodeOk]
    refine sortedForestOk_ofList _ (List.sorted_insertionSort nodeLe _) ?_
    intro x hx
    have hx' : x ∈ toSortedList cs := ((List.perm_insertionSort nodeLe _).mem_iff).mp hx
    exact sortedNodeOk_of_mem_toSortedList cs x hx'
lemma sortedNodeOk_of_mem_toSortedList :
    ∀ m : NodeRecord, ∀ x ∈ toSortedList m, sortedNodeOk x = true
  | .nil, x, hx => by simp [toSortedList] at hx
  | .cons k n rest, x, hx => by
    simp only [toSortedList, List.mem_cons] at hx
    rcases hx with hx | hx
    · subst hx; exact sortedNodeOk_toSortedNode n
    · exact sortedNodeOk_of_mem_toSortedList rest x hx
end

/-- Claim C5: in the sorted variant (`buildTreeSelectData`), at every level
of the returned tree — the root list and every node's children — sibling
nodes appear in ascending lexicographic order of their `value` field. -/
theorem claim_C5 (options : List TreeOption) (d : Char) :
    sortedForestOk (buildTreeSelectData options d) = true := by
  unfold buildTreeSelectData toSortedTree
  refine sortedForestOk_ofList _ (List.sorted_insertionSort nodeLe _) ?_
  intro x hx
  exact sortedNodeOk_of_mem_toSortedList _ x
    (((List.perm_insertionSort nodeLe _).mem_iff).mp hx)

lemma processOption_unusable {o : TreeOption} (d : Char) (m : NodeRecord)
    (h : usableOption o = false) : processOption d m o = m := by
  cases o with
  | mk label value =>
    cases value with
    | str s =>
      simp only [usableOption, decide_eq_false_iff_not, not_not] at h
      simp [processOption, h]
    | num n => rfl
    | null => rfl

lemma foldl_processOption_filter (d : Char) (l : List TreeOption) (m : NodeRecord) :
    l.foldl (processOption d) m = (l.filter usableOption).foldl (processOption d) m := by
  induction l generalizing m with
  | nil => rfl
  | cons o l ih =>
    by_cases h : usableOption o = true
    · simp [List.filter, h, List.foldl, ih]
    · rw [Bool.not_eq_true] at h
      simp [List.filter, h, List.foldl, processOption_unusable d m h, ih]

/-- Claim C7: `buildTreeSelectData` is a total function (it is a Lean `def`,
so it can raise no error), and entries whose value is not a string, is
`null`, or is empty after trimming contribute nothing: the output equals
the output on the input with those entries removed, so the remaining
entries are processed exactly as before. -/
theorem claim_C7 (options : List TreeOption) (d : Char) :
    buildTreeSelectData options d =
      buildTreeSelectData (options.filter usableOption) d := by
  unfold buildTreeSelectData buildInternal
  rw [foldl_processOption_filter]

lemma processPath_eq_with (m : NodeRecord) (path : JStr) :
    processPath m path = processPathWith (detectDelimiter path) m path := rfl

lemma detectDelimiter_spec (path : JStr) :
    detectDelimiter path = if '/' ∈ path then '/' else '.' := by
  unfold detectDelimiter
  by_cases h : '/' ∈ path
  · simp [List.contains, h, List.elem_eq_true_of_mem h]
  · simp only [h, if_false]
    have : path.contains '/' = false := by
      rw [Bool.eq_false_iff]
      intro hc
      exact h (List.mem_of_elem_eq_true hc)
    simp [List.contains] at this
    simp [this]

/-- Claim C6: in `buildTreeData` (no delimiter override exists in this
variant) the delimiter is chosen independently for each entry: the builder
folds a per-entry step over the input, and that step processes the entry
with delimiter `'/'` exactly when the raw path contains at least one `'/'`
character, and with `'.'` otherwise. -/
theorem claim_C6 (values : List JStr) :
    buildTreeDataInternal values =
      values.foldl
        (fun m path => processPathWith (if '/' ∈ path then '/' else '.') m path)
        NodeRecord.nil := by
  unfold buildTreeDataInternal
  have h : processPath =
      fun m path => processPathWith (if '/' ∈ path then '/' else '.') m path := by
    funext m path
    rw [processPath_eq_with, detectDelimiter_spec]
  rw [h]

lemma getR_setR_same (m : NodeRecord) (k : JStr) (v : InternalNode) :
    getR (setR m k v) k = some v := by
  induction m using NodeRecord.inductionOn with
  | nil => simp [setR, getR]
  | cons k' n rest ih =>
    by_cases h : k' = k
    · simp [setR, getR, h]
    · simp [setR, getR, h, ih]

lemma getR_setR_ne (m : NodeRecord) (k q : JStr) (v : InternalNode) (h : q ≠ k) :
    getR (setR m k v) q = getR m q := by
  induction m using NodeRecord.inductionOn with
  | nil => simp [setR, getR, Ne.symm h]
  | cons k' n rest ih =>
    by_cases h' : k' = k
    · subst h'
      simp [setR, getR, Ne.symm h]
    · simp only [setR, if_neg h']
      by_cases h2 : k' = q
      · simp [getR, h2]
      · simp [getR, h2, ih]

lemma keysR_setR (m : NodeRecord) (k : JStr) (v : InternalNode) :
    keysR (setR m k v) = if k ∈ keysR m then keysR m else keysR m ++ [k] := by
  induction m using NodeRecord.inductionOn with
  | nil => simp [setR, keysR]
  | cons k' n rest ih =>
    by_cases h : k' = k
    · simp [setR, keysR, h]
    · simp only [setR, if_neg h, keysR, ih, List.mem_cons]
      by_cases h2 : k ∈ keysR rest
      · simp [h2, Ne.symm h]
      · simp [h2, Ne.symm h]

lemma getR_eq_none_iff (m : NodeRecord) (q : JStr) :
    getR m q = none ↔ q ∉ keysR m := by
  induction m using NodeRecord.inductionOn with
  | nil => simp [getR, keysR]
  | cons k n rest ih =>
    by_cases h : k = q
    · simp [getR, keysR, h]
    · simp [getR, keysR, h, ih, Ne.symm h]

lemma kvOkNode_of_get {m : NodeRecord} {k : JStr} {n : InternalNode}
    (hm : kvOkForest m = true) (hg : getR m k = some n) : kvOkNode k n = true := by
  induction m using NodeRecord.inductionOn with
  | nil => simp [getR] at hg
  | cons k' n' rest ih =>
    simp only [kvOkForest, Bool.and_eq_true] at hm
    by_cases h : k' = k
    · subst h
      simp [getR] at hg
      subst hg
      exact hm.1
    · simp [getR, h] at hg
      exact ih hm.2 hg

lemma valsOkNode_of_get {d : Char} {done : List JStr} {m : NodeRecord} {k : JStr}
    {n : InternalNode} (hm : valsOkForest d done m = true) (hg : getR m k = some n) :
    valsOkNode d done k n = true := by
  induction m using NodeRecord.inductionOn with
  | nil => simp [getR] at hg
  | cons k' n' rest ih =>
    simp only [valsOkForest, Bool.and_eq_true] at hm
    by_cases h : k' = k
    · subst h
      simp [getR] at hg
      subst hg
      exact hm.1
    · simp [getR, h] at hg
      exact ih hm.2 hg

lemma nodupKeysNode_of_get {m : NodeRecord} {k : JStr} {n : InternalNode}
    (hm : nodupKeysForest m = true) (hg : getR m k = some n) : nodupKeysNode n = true := by
  induction m using NodeRecord.inductionOn with
  | nil => simp [getR] at hg
  | cons k' n' rest ih =>
    simp only [nodupKeysForest, Bool.and_eq_true] at hm
    by_cases h : k' = k
    · subst h
      simp [getR] at hg
      subst hg
      exact hm.1.2
    · simp [getR, h] at hg
      exact ih hm.2 hg

lemma kvOkForest_setR {m : NodeRecord} {k : JStr} {v : InternalNode}
    (hm : kvOkForest m = true) (hv : kvOkNode k v = true) :
    kvOkForest (setR m k v) = true := by
  induction m using NodeRecord.inductionOn with
  | nil => simp [setR, kvOkForest, hv]
  | cons k' n rest ih =>
    simp only [kvOkForest, Bool.and_eq_true] at hm
    by_cases h : k' = k
    · subst h
      simp [setR, kvOkForest, hv, hm.2]
    · simp [setR, h, kvOkForest, hm.1, ih hm.2]

lemma valsOkForest_setR {d : Char} {done : List JStr} {m : NodeRecord} {k : JStr}
    {v : InternalNode} (hm : valsOkForest d done m = true)
    (hv : valsOkNode d done k v = true) :
    valsOkForest d done (setR m k v) = true := by
  induction m using NodeRecord.inductionOn with
  | nil => simp [setR, valsOkForest, hv]
  | cons k' n rest ih =>
    simp only [valsOkForest, Bool.and_eq_true] at hm
    by_cases h : k' = k
    · subst h
      simp [setR, valsOkForest, hv, hm.2]
    · simp [setR, h, valsOkForest, hm.1, ih hm.2]

lemma nodupKeysForest_setR {m : NodeRecord} {k : JStr} {v : InternalNode}
    (hm : nodupKeysForest m = true) (hv : nodupKeysNode v = true) :
    nodupKeysForest (setR m k v) = true := by
  induction m using NodeRecord.inductionOn with
  | nil => simp [setR, nodupKeysForest, keysR, hv]
  | cons k' n rest ih =>
    simp only [nodupKeysForest, Bool.and_eq_true] at hm
    by_cases h : k' = k
    · subst h
      simp only [setR, if_pos rfl, nodupKeysForest, Bool.and_eq_true]
      exact ⟨⟨hm.1.1, hv⟩, hm.2⟩
    · simp only [setR, if_neg h, nodupKeysForest, Bool.and_eq_true]
      refine ⟨⟨?_, hm.1.2⟩, ih hm.2⟩
      rw [decide_eq_true_iff] at hm ⊢
      rw [keysR_setR]
      by_cases h2 : k ∈ keysR rest
      · simp [h2, hm.1.1]
      · simp [h2, hm.1.1, h]

lemma valsOkNode_mk (d : Char) (done : List JStr) (k t : JStr) (cs : NodeRecord)
    (h : valsOkForest d (done ++ [k]) cs = true) :
    valsOkNode d done k (.mk t (joinD d (done ++ [k])) (joinD d (done ++ [k])) cs) = true := by
  simp [valsOkNode, h]

lemma kvOkNode_mk (k t : JStr) (cs : NodeRecord) (h : kvOkForest cs = true) :
    kvOkNode k (.mk t k k cs) = true := by
  simp [kvOkNode, h]

lemma nodupKeysNode_mk (t v k : JStr) (cs : NodeRecord) (h : nodupKeysForest cs = true) :
    nodupKeysNode (.mk t v k cs) = true := by
  simp [nodupKeysNode, h]

lemma valsOkForest_insertParts (d : Char) (label : JStr) :
    ∀ (parts done : List JStr) (m : NodeRecord),
      valsOkForest d done m = true →
      valsOkForest d done (insertParts d label done parts m) = true := by
  intro parts
  induction parts with
  | nil =>
    intro done m hm
    simpa [insertParts] using hm
  | cons part rest ih =>
    intro done m hm
    rw [insertParts]
    apply valsOkForest_setR hm
    cases hg : getR m part with
    | none =>
      simp only [hg]
      cases rest with
      | nil => exact valsOkNode_mk d done part label _ rfl
      | cons r rs =>
        simp only [reduceCtorEq, if_neg]
        exact valsOkNode_mk d done part part _ (ih (done ++ [part]) .nil rfl)
    | some n =>
      have hn := valsOkNode_of_get hm hg
      cases n with
      | mk t v key cs =>
        simp only [valsOkNode, Bool.and_eq_true, decide_eq_true_iff] at hn
        obtain ⟨⟨hv, hkey⟩, hcs⟩ := hn
        subst hv
        subst hkey
        simp only [hg]
        cases rest with
        | nil => exact valsOkNode_mk d done part label _ hcs
        | cons r rs =>
          simp only [reduceCtorEq, if_neg]
          exact valsOkNode_mk d done part t _ (ih (done ++ [part]) cs hcs)

lemma nodupKeysForest_insertParts (d : Char) (label : JStr) :
    ∀ (parts done : List JStr) (m : NodeRecord),
      nodupKeysForest m = true →
      nodupKeysForest (insertParts d label done parts m) = true := by
  intro parts
  induction parts with
  | nil =>
    intro done m hm
    simpa [insertParts] using hm
  | cons part rest ih =>
    intro done m hm
    rw [insertParts]
    apply nodupKeysForest_setR hm
    cases hg : getR m part with
    | none =>
      simp only [hg]
      cases rest with
      | nil => exact nodupKeysNode_mk label _ _ _ rfl
      | cons r rs =>
        simp only [reduceCtorEq, if_neg]
        exact nodupKeysNode_mk part _ _ _ (ih (done ++ [part]) .nil rfl)
    | some n =>
      have hn := nodupKeysNode_of_get hm hg
      cases n with
      | mk t v key cs =>
        simp only [nodupKeysNode] at hn
        simp only [hg]
        cases rest with
        | nil => exact nodupKeysNode_mk label _ _ _ hn
        | cons r rs =>
          simp only [reduceCtorEq, if_neg]
          exact nodupKeysNode_mk t _ _ _ (ih (done ++ [part]) cs hn)

lemma kvOkForest_insertSegs (d : Char) :
    ∀ (segs : List JStr) (asm : Option JStr) (m : NodeRecord),
      kvOkForest m = true →
      kvOkForest (insertSegs d asm segs m) = true := by
  intro segs
  induction segs with
  | nil =>
    intro asm m hm
    simpa [insertSegs] using hm
  | cons seg rest ih =>
    intro asm m hm
    rw [insertSegs]
    apply kvOkForest_setR hm
    cases hg : getR m (nextVal d asm seg) with
    | none =>
      simp only [hg]
      exact kvOkNode_mk _ seg _ (ih _ .nil rfl)
    | some n =>
      have hn := kvOkNode_of_get hm hg
      cases n with
      | mk t v key cs =>
        simp only [kvOkNode, Bool.and_eq_true, decide_eq_true_iff] at hn
        obtain ⟨⟨hv, hkey⟩, hcs⟩ := hn
        subst hv
        subst hkey
        simp only [hg]
        exact kvOkNode_mk _ t _ (ih _ cs hcs)

lemma nodupKeysForest_insertSegs (d : Char) :
    ∀ (segs : List JStr) (asm : Option JStr) (m : NodeRecord),
      nodupKeysForest m = true →
      nodupKeysForest (insertSegs d asm segs m) = true := by
  intro segs
  induction segs with
  | nil =>
    intro asm m hm
    simpa [insertSegs] using hm
  | cons seg rest ih =>
    intro asm m hm
    rw [insertSegs]
    apply nodupKeysForest_setR hm
    cases hg : getR m (nextVal d asm seg) with
    | none =>
      simp only [hg]
      exact nodupKeysNode_mk seg _ _ _ (ih _ .nil rfl)
    | some n =>
      have hn := nodupKeysNode_of_get hm hg
      cases n with
      | mk t v key cs =>
        simp only [nodupKeysNode] at hn
        simp only [hg]
        exact nodupKeysNode_mk t _ _ _ (ih _ cs hn)

lemma kvOkForest_ensureChild {m : NodeRecord} (v t : JStr)
    (hm : kvOkForest m = true) : kvOkForest (ensureChild m v t) = true := by
  unfold ensureChild
  cases getR m v with
  | none => exact kvOkForest_setR hm (kvOkNode_mk v t .nil rfl)
  | some n => exact hm

lemma nodupKeysForest_ensureChild {m : NodeRecord} (v t : JStr)
    (hm : nodupKeysForest m = true) : nodupKeysForest (ensureChild m v t) = true := by
  unfold ensureChild
  cases getR m v with
  | none => exact nodupKeysForest_setR hm (nodupKeysNode_mk t v v .nil rfl)
  | some n => exact hm

lemma valsOkForest_processOption (d : Char) (m : NodeRecord) (o : TreeOption)
    (hm : valsOkForest d [] m = true) :
    valsOkForest d [] (processOption d m o) = true := by
  obtain ⟨label, value⟩ := o
  cases value with
  | str s =>
    simp only [processOption]
    split
    · exact hm
    · split
      · exact hm
      · exact valsOkForest_insertParts d label _ [] m hm
  | num n => exact hm
  | null => exact hm

lemma nodupKeysForest_processOption (d : Char) (m : NodeRecord) (o : TreeOption)
    (hm : nodupKeysForest m = true) :
    nodupKeysForest (processOption d m o) = true := by
  obtain ⟨label, value⟩ := o
  cases value with
  | str s =>
    simp only [processOption]
    split
    · exact hm
    · split
      · exact hm
      · exact nodupKeysForest_insertParts d label _ [] m hm
  | num n => exact hm
  | null => exact hm

lemma kvOkForest_processPath (m : NodeRecord) (p : JStr)
    (hm : kvOkForest m = true) : kvOkForest (processPath m p) = true := by
  simp only [processPath]
  split
  · exact kvOkForest_ensureChild p p hm
  · exact kvOkForest_insertSegs _ _ _ m hm

lemma nodupKeysForest_processPath (m : NodeRecord) (p : JStr)
    (hm : nodupKeysForest m = true) : nodupKeysForest (processPath m p) = true := by
  simp only [processPath]
  split
  · exact nodupKeysForest_ensureChild p p hm
  · exact nodupKeysForest_insertSegs _ _ _ m hm

lemma valsOk_foldl (d : Char) (l : List TreeOption) :
    ∀ m, valsOkForest d [] m = true →
      valsOkForest d [] (l.foldl (processOption d) m) = true := by
  induction l with
  | nil => intro m hm; exact hm
  | cons o l ih =>
    intro m hm
    exact ih _ (valsOkForest_processOption d m o hm)

lemma valsOk_buildInternal (options : List TreeOption) (d : Char) :
    valsOkForest d [] (buildInternal options d) = true :=
  valsOk_foldl d options .nil rfl

lemma nodupKeys_foldl (d : Char) (l : List TreeOption) :
    ∀ m, nodupKeysForest m = true →
      nodupKeysForest (l.foldl (processOption d) m) = true := by
  induction l with
  | nil => intro m hm; exact hm
  | cons o l ih =>
    intro m hm
    exact ih _ (nodupKeysForest_processOption d m o hm)

lemma nodupKeys_buildInternal (options : List TreeOption) (d : Char) :
    nodupKeysForest (buildInternal options d) = true :=
  nodupKeys_foldl d options .nil rfl

lemma kvOk_foldl (l : List JStr) :
    ∀ m, kvOkForest m = true →
      kvOkForest (l.foldl processPath m) = true := by
  induction l with
  | nil => intro m hm; exact hm
  | cons p l ih =>
    intro m hm
    exact ih _ (kvOkForest_processPath m p hm)

lemma kvOk_buildTreeDataInternal (values : List JStr) :
    kvOkForest (buildTreeDataInternal values) = true :=
  kvOk_foldl values .nil rfl

lemma nodupKeys_foldl_processPath (l : List JStr) :
    ∀ m, nodupKeysForest m = true →
      nodupKeysForest (l.foldl processPath m) = true := by
  induction l with
  | nil => intro m hm; exact hm
  | cons p l ih =>
    intro m hm
    exact ih _ (nodupKeysForest_processPath m p hm)

lemma nodupKeys_buildTreeDataInternal (values : List JStr) :
    nodupKeysForest (buildTreeDataInternal values) = true :=
  nodupKeys_foldl_processPath values .nil rfl

lemma joinD_singleton (d : Char) (x : JStr) : joinD d [x] = x := by
  simp [joinD, List.intercalate, List.intersperse]

lemma joinD_cons₂ (d : Char) (x y : JStr) (ys : List JStr) :
    joinD d (x :: y :: ys) = x ++ d :: joinD d (y :: ys) := by
  simp [joinD, List.intercalate, List.intersperse]

lemma joinD_append_singleton (d : Char) (a : JStr) :
    ∀ done : List JStr, done ≠ [] → joinD d (done ++ [a]) = joinD d done ++ d :: a := by
  intro done
  induction done with
  | nil => intro h; exact absurd rfl h
  | cons e done' ih =>
    intro _
    cases done' with
    | nil => simp [joinD_cons₂, joinD_singleton]
    | cons f fs =>
      have h1 : joinD d ((e :: f :: fs) ++ [a]) =
          e ++ d :: joinD d ((f :: fs) ++ [a]) := joinD_cons₂ d e f (fs ++ [a])
      rw [h1, ih (by simp), joinD_cons₂]
      simp

lemma joinD_append_inj {d : Char} {done : List JStr} {a b : JStr}
    (h : joinD d (done ++ [a]) = joinD d (done ++ [b])) : a = b := by
  cases done with
  | nil => simpa [joinD_singleton] using h
  | cons e done' =>
    rw [joinD_append_singleton d a (e :: done') (by simp),
      joinD_append_singleton d b (e :: done') (by simp)] at h
    have := List.append_cancel_left h
    simpa using this

lemma levelValuesR_valsOk {d : Char} {done : List JStr} :
    ∀ {m : NodeRecord}, valsOkForest d done m = true →
      levelValuesR m = (keysR m).map (fun k => joinD d (done ++ [k])) := by
  intro m
  induction m using NodeRecord.inductionOn with
  | nil => intro _; rfl
  | cons k n rest ih =>
    intro hm
    simp only [valsOkForest, Bool.and_eq_true] at hm
    obtain ⟨hn, hrest⟩ := hm
    cases n with
    | mk t v key cs =>
      simp only [valsOkNode, Bool.and_eq_true, decide_eq_true_iff] at hn
      simp only [levelValuesR, keysR, List.map, InternalNode.value, hn.1.1, ih hrest]

lemma levelValuesR_kvOk :
    ∀ {m : NodeRecord}, kvOkForest m = true → levelValuesR m = keysR m := by
  intro m
  induction m using NodeRecord.inductionOn with
  | nil => intro _; rfl
  | cons k n rest ih =>
    intro hm
    simp only [kvOkForest, Bool.and_eq_true] at hm
    obtain ⟨hn, hrest⟩ := hm
    cases n with
    | mk t v key cs =>
      simp only [kvOkNode, Bool.and_eq_true, decide_eq_true_iff] at hn
      simp only [levelValuesR, keysR, InternalNode.value, hn.1.1, ih hrest]

lemma keysR_nodup :
    ∀ {m : NodeRecord}, nodupKeysForest m = true → (keysR m).Nodup := by
  intro m
  induction m using NodeRecord.inductionOn with
  | nil => intro _; simp [keysR]
  | cons k n rest ih =>
    intro hm
    simp only [nodupKeysForest, Bool.and_eq_true, decide_eq_true_iff] at hm
    simp only [keysR, List.nodup_cons]
    exact ⟨hm.1.1, ih hm.2⟩

lemma levelValuesTS_ofList (l : List TreeSelectDataNode) :
    levelValuesTS (TSForest.ofList l) = l.map TreeSelectDataNode.value := by
  induction l with
  | nil => rfl
  | cons n rest ih => simp [TSForest.ofList, levelValuesTS, ih]

lemma map_value_toSortedList :
    ∀ m : NodeRecord, (toSortedList m).map TreeSelectDataNode.value = levelValuesR m := by
  intro m
  induction m using NodeRecord.inductionOn with
  | nil => rfl
  | cons k n rest ih =>
    cases n with
    | mk t v key cs =>
      simp only [toSortedList, List.map, levelValuesR, toSortedNode,
        TreeSelectDataNode.value, InternalNode.value, ih]

lemma distinctSibNodes_ofList (l : List TreeSelectDataNode)
    (h : ∀ x ∈ l, distinctSibNode x = true) :
    distinctSibNodes (TSForest.ofList l) = true := by
  induction l with
  | nil => rfl
  | cons n rest ih =>
    simp only [TSForest.ofList, distinctSibNodes, Bool.and_eq_true]
    exact ⟨h n (by simp), ih (fun x hx => h x (by simp [hx]))⟩

lemma nodup_sorted_values {d : Char} {done : List JStr} {cs : NodeRecord}
    (hval : valsOkForest d done cs = true) (hnd : nodupKeysForest cs = true) :
    (levelValuesTS (TSForest.ofList
      (List.insertionSort nodeLe (toSortedList cs)))).Nodup := by
  rw [levelValuesTS_ofList]
  have hperm := ((List.perm_insertionSort nodeLe
    (toSortedList cs)).map TreeSelectDataNode.value)
  rw [hperm.nodup_iff]
  rw [map_value_toSortedList, levelValuesR_valsOk hval]
  exact (keysR_nodup hnd).map
    (fun a b hab => joinD_append_inj hab)

mutual
lemma distinctSibNode_toSortedNode :
    ∀ (n : InternalNode) (d : Char) (done : List JStr) (k : JStr),
      valsOkNode d done k n = true → nodupKeysNode n = true →
      distinctSibNode (toSortedNode n) = true
  | .mk t v key cs, d, done, k, hval, hnd => by
    simp only [valsOkNode, Bool.and_eq_true, decide_eq_true_iff] at hval
    simp only [nodupKeysNode] at hnd
    simp only [toSortedNode, distinctSibNode, Bool.and_eq_true]
    refine ⟨decide_eq_true (nodup_sorted_values hval.2 hnd), ?_⟩
    refine distinctSibNodes_ofList _ ?_
    intro x hx
    have hx' : x ∈ toSortedList cs :=
      ((List.perm_insertionSort nodeLe _).mem_iff).mp hx
    exact distinctSibNode_of_mem_toSortedList cs d (done ++ [k]) hval.2 hnd x hx'
lemma distinctSibNode_of_mem_toSortedList :
    ∀ (m : NodeRecord) (d : Char) (done : List JStr),
      valsOkForest d done m = true → nodupKeysForest m = true →
      ∀ x ∈ toSortedList m, distinctSibNode x = true
  | .nil, _, _, _, _, x, hx => by simp [toSortedList] at hx
  | .cons k n rest, d, done, hval, hnd, x, hx => by
    simp only [valsOkForest, Bool.and_eq_true] at hval
    simp only [nodupKeysForest, Bool.and_eq_true] at hnd
    simp only [toSortedList, List.mem_cons] at hx
    rcases hx with hx | hx
    · subst hx
      exact distinctSibNode_toSortedNode n d done k hval.1 hnd.1.2
    · exact distinctSibNode_of_mem_toSortedList rest d done hval.2 hnd.2 x hx
end

lemma levelValuesTN_convertForest :
    ∀ m : NodeRecord, levelValuesTN (convertForest m) = levelValuesR m := by
  intro m
  induction m using NodeRecord.inductionOn with
  | nil => rfl
  | cons k n rest ih =>
    cases n with
    | mk t v key cs =>
      simp only [convertForest, levelValuesTN, convertNode, TreeNode.value,
        levelValuesR, InternalNode.value, ih]

mutual
lemma distinctSibNodeTN_convertNode :
    ∀ (n : InternalNode) (k : JStr),
      kvOkNode k n = true → nodupKeysNode n = true →
      distinctSibNodeTN (convertNode n) = true
  | .mk t v key cs, k, hkv, hnd => by
    simp only [kvOkNode, Bool.and_eq_true, decide_eq_true_iff] at hkv
    simp only [nodupKeysNode] at hnd
    simp only [convertNode, distinctSibNodeTN, Bool.and_eq_true]
    constructor
    · rw [decide_eq_true_iff, levelValuesTN_convertForest, levelValuesR_kvOk hkv.2]
      exact keysR_nodup hnd
    · exact distinctSibNodesTN_convertForest cs hkv.2 hnd
lemma distinctSibNodesTN_convertForest :
    ∀ m : NodeRecord, kvOkForest m = true → nodupKeysForest m = true →
      distinctSibNodesTN (convertForest m) = true
  | .nil, _, _ => rfl
  | .cons k n rest, hkv, hnd => by
    simp only [kvOkForest, Bool.and_eq_true] at hkv
    simp only [nodupKeysForest, Bool.and_eq_true] at hnd
    simp only [convertForest, distinctSibNodesTN, Bool.and_eq_true]
    exact ⟨distinctSibNodeTN_convertNode n k hkv.1 hnd.1.2,
      distinctSibNodesTN_convertForest rest hkv.2 hnd.2⟩
end

/-- Claim C2: for every input list and both builder variants, no sibling
list of the output tree — the root list included — contains two nodes with
equal `value`: each distinct path prefix is represented by exactly one
node (it is created by the first entry that reaches it and merely looked
up, never duplicated, by every later entry sharing it). -/
theorem claim_C2 :
    (∀ (options : List TreeOption) (d : Char),
        distinctSiblingsTS (buildTreeSelectData options d) = true) ∧
    (∀ values : List JStr, distinctSiblingsTN (buildTreeData values) = true) := by
  constructor
  · intro options d
    have hval := valsOk_buildInternal options d
    have hnd := nodupKeys_buildInternal options d
    unfold buildTreeSelectData toSortedTree distinctSiblingsTS
    rw [Bool.and_eq_true]
    refine ⟨decide_eq_true (nodup_sorted_values hval hnd), ?_⟩
    refine distinctSibNodes_ofList _ ?_
    intro x hx
    exact distinctSibNode_of_mem_toSortedList _ d [] hval hnd x
      (((List.perm_insertionSort nodeLe _).mem_iff).mp hx)
  · intro values
    have hkv := kvOk_buildTreeDataInternal values
    have hnd := nodupKeys_buildTreeDataInternal values
    unfold buildTreeData distinctSiblingsTN
    rw [Bool.and_eq_true]
    constructor
    · rw [decide_eq_true_iff, levelValuesTN_convertForest, levelValuesR_kvOk hkv]
      exact keysR_nodup hnd
    · exact distinctSibNodesTN_convertForest _ hkv hnd

lemma splitChar_ne_nil (d : Char) : ∀ s : JStr, splitChar d s ≠ [] := by
  intro s
  cases s with
  | nil => simp [splitChar]
  | cons c rest =>
    rw [splitChar]
    by_cases h : c = d
    · simp [h]
    · simp only [h, if_neg, if_false]
      cases hs : splitChar d rest with
      | nil => simp
      | cons chunk chunks => simp

lemma splitChar_chars (d : Char) :
    ∀ (s p : JStr), p ∈ splitChar d s → ∀ c ∈ p, c ∈ s := by
  intro s
  induction s with
  | nil =>
    intro p hp c hc
    simp [splitChar] at hp
    subst hp
    simp at hc
  | cons a rest ih =>
    intro p hp c hc
    rw [splitChar] at hp
    by_cases h : a = d
    · subst h
      rw [if_pos rfl] at hp
      rcases List.mem_cons.mp hp with hp | hp
      · subst hp; simp at hc
      · exact List.mem_cons_of_mem a (ih p hp c hc)
    · rw [if_neg h] at hp
      cases hs : splitChar d rest with
      | nil => exact absurd hs (splitChar_ne_nil d rest)
      | cons chunk chunks =>
        rw [hs] at hp
        simp only [List.mem_cons] at hp
        rcases hp with hp | hp
        · subst hp
          rcases List.mem_cons.mp hc with hc | hc
          · simp [hc]
          · exact List.mem_cons_of_mem a
              (ih chunk (by rw [hs]; exact List.mem_cons_self chunk chunks) c hc)
        · exact List.mem_cons_of_mem a
            (ih p (by rw [hs]; exact List.mem_cons_of_mem chunk hp) c hc)

lemma splitChar_delim_not_mem (d : Char) :
    ∀ (s p : JStr), p ∈ splitChar d s → d ∉ p := by
  intro s
  induction s with
  | nil =>
    intro p hp
    simp [splitChar] at hp
    subst hp
    simp
  | cons a rest ih =>
    intro p hp
    rw [splitChar] at hp
    by_cases h : a = d
    · subst h
      rw [if_pos rfl] at hp
      rcases List.mem_cons.mp hp with hp | hp
      · subst hp; simp
      · exact ih p hp
    · rw [if_neg h] at hp
      cases hs : splitChar d rest with
      | nil => exact absurd hs (splitChar_ne_nil d rest)
      | cons chunk chunks =>
        rw [hs] at hp
        simp only [List.mem_cons] at hp
        rcases hp with hp | hp
        · subst hp
          intro hd
          rcases List.mem_cons.mp hd with hd | hd
          · exact h hd.symm
          · exact ih chunk (by rw [hs]; exact List.mem_cons_self chunk chunks) hd
        · exact ih p (by rw [hs]; exact List.mem_cons_of_mem chunk hp)

lemma splitChar_filter_nil_iff (d : Char) :
    ∀ s : JStr, ((splitChar d s).filter (fun p => p ≠ []) = []) ↔ ∀ c ∈ s, c = d := by
  intro s
  induction s with
  | nil => simp [splitChar]
  | cons a rest ih =>
    rw [splitChar]
    by_cases h : a = d
    · subst h
      simp only [if_pos rfl, List.filter]
      simpa using ih
    · simp only [h, if_neg, if_false]
      cases hs : splitChar d rest with
      | nil => exact absurd hs (splitChar_ne_nil d rest)
      | cons chunk chunks =>
        simp only [List.filter_cons]
        have : (a :: chunk) ≠ [] := by simp
        simp [this, h]

lemma rootShapeOk_setR {m : NodeRecord} {k : JStr} {v : InternalNode}
    (hm : rootShapeOk m = true)
    (hv : (decide (v.title = v.value) || slashRootShape v.value) = true) :
    rootShapeOk (setR m k v) = true := by
  induction m using NodeRecord.inductionOn with
  | nil => simp [setR, rootShapeOk, hv]
  | cons k' n rest ih =>
    simp only [rootShapeOk, Bool.and_eq_true] at hm
    by_cases h : k' = k
    · subst h
      simp only [setR, if_pos rfl, rootShapeOk, Bool.and_eq_true]
      exact ⟨hv, hm.2⟩
    · simp only [setR, if_neg h, rootShapeOk, Bool.and_eq_true]
      exact ⟨hm.1, ih hm.2⟩

lemma rootShape_of_get {m : NodeRecord} {k : JStr} {n : InternalNode}
    (hm : rootShapeOk m = true) (hg : getR m k = some n) :
    (decide (n.title = n.value) || slashRootShape n.value) = true := by
  induction m using NodeRecord.inductionOn with
  | nil => simp [getR] at hg
  | cons k' n' rest ih =>
    simp only [rootShapeOk, Bool.and_eq_true] at hm
    by_cases h : k' = k
    · subst h
      simp [getR] at hg
      subst hg
      exact hm.1
    · simp [getR, h] at hg
      exact ih hm.2 hg

lemma rootShapeOk_ensureChild {m : NodeRecord} (v t : JStr)
    (hm : rootShapeOk m = true) (hvt : t = v) :
    rootShapeOk (ensureChild m v t) = true := by
  unfold ensureChild
  cases getR m v with
  | none =>
    apply rootShapeOk_setR hm
    simp [InternalNode.title, InternalNode.value, hvt]
  | some n => exact hm

lemma nextVal_slash_empty (s : JStr) : nextVal '/' (some []) s = '/' :: s := by
  simp [nextVal]

lemma nextVal_dot_none (s : JStr) : nextVal '.' none s = s := by
  simp [nextVal]

lemma detectDelimiter_cases (p : JStr) :
    detectDelimiter p = '/' ∨ detectDelimiter p = '.' := by
  rw [detectDelimiter_spec]
  by_cases h : '/' ∈ p
  · left; simp [h]
  · right; simp [h]

lemma rootShapeOk_insertSegs_cons {m : NodeRecord} (d : Char) (asm : Option JStr)
    (s₀ : JStr) (ss : List JStr) (hm : rootShapeOk m = true)
    (hshape : (decide (s₀ = nextVal d asm s₀) || slashRootShape (nextVal d asm s₀)) = true) :
    rootShapeOk (insertSegs d asm (s₀ :: ss) m) = true := by
  rw [insertSegs]
  apply rootShapeOk_setR hm
  cases hg : getR m (nextVal d asm s₀) with
  | none =>
    simpa [InternalNode.withChildren, InternalNode.title, InternalNode.value] using hshape
  | some n =>
    have := rootShape_of_get hm hg
    cases n with
    | mk t v key cs =>
      simpa [InternalNode.withChildren, InternalNode.title, InternalNode.value] using this

lemma rootShapeOk_processPath (m : NodeRecord) (p : JStr)
    (hm : rootShapeOk m = true) : rootShapeOk (processPath m p) = true := by
  simp only [processPath]
  split
  · exact rootShapeOk_ensureChild p p hm rfl
  · rename_i hns
    cases hseg : (splitChar (detectDelimiter p) p).filter (fun q => q ≠ []) with
    | nil => exact absurd hseg hns
    | cons s₀ ss =>
      have hs₀ : s₀ ∈ (splitChar (detectDelimiter p) p).filter (fun q => q ≠ []) := by
        rw [hseg]; exact List.mem_cons_self s₀ ss
      have hs₀' := List.mem_filter.mp hs₀
      have hs₀ne : s₀ ≠ [] := by simpa using hs₀'.2
      rcases detectDelimiter_cases p with hd | hd
      · rw [hd] at hseg ⊢
        simp only [if_pos rfl]
        refine rootShapeOk_insertSegs_cons '/' (some []) s₀ ss hm ?_
        rw [nextVal_slash_empty]
        have hnm : '/' ∉ s₀ :=
          splitChar_delim_not_mem '/' p s₀ (by rw [← hd]; exact hs₀'.1)
        simp [slashRootShape, hs₀ne, hnm]
      · rw [hd] at hseg ⊢
        have : ('.' : Char) ≠ '/' := by decide
        simp only [if_neg this]
        refine rootShapeOk_insertSegs_cons '.' none s₀ ss hm ?_
        rw [nextVal_dot_none]
        simp

lemma rootShapeOk_foldl (l : List JStr) :
    ∀ m, rootShapeOk m = true → rootShapeOk (l.foldl processPath m) = true := by
  induction l with
  | nil => intro m hm; exact hm
  | cons p l ih =>
    intro m hm
    exact ih _ (rootShapeOk_processPath m p hm)

lemma rootShapeOk_buildTreeDataInternal (values : List JStr) :
    rootShapeOk (buildTreeDataInternal values) = true :=
  rootShapeOk_foldl values .nil rfl

lemma slashRootShape_false_of_deg {path : JStr}
    (hdeg : (splitChar (detectDelimiter path) path).filter (fun p => p ≠ []) = []) :
    slashRootShape path = false := by
  cases path with
  | nil => rfl
  | cons c seg =>
    rw [Bool.eq_false_iff]
    intro hsh
    simp only [slashRootShape, Bool.and_eq_true, decide_eq_true_iff] at hsh
    obtain ⟨⟨hc, hne⟩, hnm⟩ := hsh
    subst hc
    have hmem : '/' ∈ ('/' :: seg : JStr) := List.mem_cons_self _ _
    have hdet : detectDelimiter ('/' :: seg) = '/' := by
      rw [detectDelimiter_spec, if_pos hmem]
    rw [hdet] at hdeg
    have hall := (splitChar_filter_nil_iff '/' ('/' :: seg)).mp hdeg
    cases seg with
    | nil => exact hne rfl
    | cons e es =>
      have : e = '/' := hall e (by simp)
      exact hnm (by rw [this]; exact List.mem_cons_self _ _)

lemma convert_mem_of_get :
    ∀ {m : NodeRecord} {k : JStr} {n : InternalNode}, getR m k = some n →
      ∃ t ∈ (convertForest m).toList,
        t.key = n.key ∧ t.value = n.value ∧ t.title = n.title := by
  intro m
  induction m using NodeRecord.inductionOn with
  | nil => intro k n hg; simp [getR] at hg
  | cons k' n' rest ih =>
    intro k n hg
    by_cases h : k' = k
    · subst h
      cases n' with
      | mk t v key cs =>
        have hg' : InternalNode.mk t v key cs = n := by simpa [getR] using hg
        refine ⟨convertNode (.mk t v key cs), by simp [convertForest, TNForest.toList], ?_⟩
        rw [← hg']
        simp [convertNode, TreeNode.key, TreeNode.value, TreeNode.title,
          InternalNode.key, InternalNode.value, InternalNode.title]
    · simp [getR, h] at hg
      obtain ⟨t, ht, hf⟩ := ih hg
      exact ⟨t, by simp [convertForest, TNForest.toList, ht], hf⟩

/-- Claim C9: in `buildTreeData`, an input path with zero non-empty
segments under its detected delimiter is not dropped: the output contains
a root node whose `key`, `value`, and `title` all equal the whole raw
string. -/
theorem claim_C9 (values : List JStr) (path : JStr)
    (hdeg : (splitChar (detectDelimiter path) path).filter (fun p => p ≠ []) = []) :
    ∃ t ∈ (buildTreeData (values ++ [path])).toList,
      t.key = path ∧ t.value = path ∧ t.title = path := by
  have hkv := kvOk_buildTreeDataInternal values
  have hrs := rootShapeOk_buildTreeDataInternal values
  have hstep : buildTreeDataInternal (values ++ [path]) =
      processPath (buildTreeDataInternal values) path := by
    unfold buildTreeDataInternal
    rw [List.foldl_append]
    rfl
  have hens : processPath (buildTreeDataInternal values) path =
      ensureChild (buildTreeDataInternal values) path path := by
    simp only [processPath]
    rw [if_pos hdeg]
  unfold buildTreeData
  rw [hstep, hens]
  unfold ensureChild
  cases hg : getR (buildTreeDataInternal values) path with
  | none =>
    have hget := getR_setR_same (buildTreeDataInternal values) path
      (.mk path path path .nil)
    obtain ⟨t, ht, hf⟩ := convert_mem_of_get hget
    exact ⟨t, ht, by
      simpa [InternalNode.key, InternalNode.value, InternalNode.title] using hf⟩
  | some n =>
    have hkvn := kvOkNode_of_get hkv hg
    have hsh := rootShape_of_get hrs hg
    obtain ⟨u, hu, hf⟩ := convert_mem_of_get hg
    cases n with
    | mk t v key cs =>
      simp only [kvOkNode, Bool.and_eq_true, decide_eq_true_iff] at hkvn
      obtain ⟨⟨hv, hkey⟩, _⟩ := hkvn
      simp only [InternalNode.title, InternalNode.value, InternalNode.key] at hsh hf
      rw [Bool.or_eq_true] at hsh
      have htv : t = path := by
        rcases hsh with h1 | h1
        · rw [of_decide_eq_true h1, hv]
        · rw [hv] at h1
          rw [slashRootShape_false_of_deg hdeg] at h1
          exact absurd h1 (by simp)
      exact ⟨u, hu, hf.1.trans hkey, hf.2.1.trans hv, hf.2.2.trans htv⟩

/-- Witness for claim C9: the all-slash path `"//"` has no non-empty
segments and yields the degenerate root keyed `"//"`. -/
theorem claim_C9_witness :
    ∃ t ∈ (buildTreeData ([] ++ [js "//"])).toList,
      t.key = js "//" ∧ t.value = js "//" ∧ t.title = js "//" :=
  claim_C9 [] (js "//") (by decide)

lemma assembledVals_length (d : Char) :
    ∀ (asm : Option JStr) (segs : List JStr),
      (assembledVals d asm segs).length = segs.length := by
  intro asm segs
  induction segs generalizing asm with
  | nil => rfl
  | cons s rest ih => simp [assembledVals, ih]

lemma joinD_cons_of_ne_nil (d : Char) (x : JStr) {w : List JStr} (hw : w ≠ []) :
    joinD d (x :: w) = x ++ d :: joinD d w := by
  cases w with
  | nil => exact absurd rfl hw
  | cons y ys => exact joinD_cons₂ d x y ys

lemma assembledVals_slash :
    ∀ (segs : List JStr) (a : JStr) (i : Nat), i < segs.length →
      (assembledVals '/' (some a) segs)[i]? =
        some (a ++ '/' :: joinD '/' (segs.take (i + 1))) := by
  intro segs
  induction segs with
  | nil => intro a i hi; simp at hi
  | cons s rest ih =>
    intro a i hi
    cases i with
    | zero =>
      simp [assembledVals, nextVal_slash_empty, nextVal, joinD_singleton]
    | succ j =>
      have hj : j < rest.length := by simpa using hi
      have htake : rest.take (j + 1) ≠ [] := by
        cases rest with
        | nil => simp at hj
        | cons y ys => simp
      simp only [assembledVals, List.getElem?_cons_succ]
      rw [ih (nextVal '/' (some a) s) j hj]
      have hnv : nextVal '/' (some a) s = a ++ '/' :: s := by simp [nextVal]
      rw [hnv]
      rw [List.take_cons (by omega)]
      simp only [Nat.add_sub_cancel]
      rw [joinD_cons_of_ne_nil '/' s htake]
      simp

lemma assembledVals_dot_some :
    ∀ (segs : List JStr) (a : JStr), a ≠ [] → ∀ i : Nat, i < segs.length →
      (assembledVals '.' (some a) segs)[i]? =
        some (a ++ '.' :: joinD '.' (segs.take (i + 1))) := by
  intro segs
  induction segs with
  | nil => intro a ha i hi; simp at hi
  | cons s rest ih =>
    intro a ha i hi
    have hnv : nextVal '.' (some a) s = a ++ '.' :: s := by
      simp [nextVal, ha]
    cases i with
    | zero =>
      simp [assembledVals, hnv, joinD_singleton]
    | succ j =>
      have hj : j < rest.length := by simpa using hi
      have htake : rest.take (j + 1) ≠ [] := by
        cases rest with
        | nil => simp at hj
        | cons y ys => simp
      simp only [assembledVals, List.getElem?_cons_succ]
      rw [ih (nextVal '.' (some a) s) (by simp [hnv]) j hj]
      rw [hnv]
      rw [List.take_cons (by omega)]
      simp only [Nat.add_sub_cancel]
      rw [joinD_cons_of_ne_nil '.' s htake]
      simp

lemma assembledVals_dot_none :
    ∀ (segs : List JStr), (∀ x ∈ segs, x ≠ []) → ∀ i : Nat, i < segs.length →
      (assembledVals '.' none segs)[i]? = some (joinD '.' (segs.take (i + 1))) := by
  intro segs hne i hi
  cases segs with
  | nil => simp at hi
  | cons s rest =>
    have hnv : nextVal '.' none s = s := nextVal_dot_none s
    cases i with
    | zero => simp [assembledVals, hnv, joinD_singleton]
    | succ j =>
      have hj : j < rest.length := by simpa using hi
      have htake : rest.take (j + 1) ≠ [] := by
        cases rest with
        | nil => simp at hj
        | cons y ys => simp
      simp only [assembledVals, List.getElem?_cons_succ]
      rw [hnv]
      rw [assembledVals_dot_some rest s (hne s (by simp)) j hj]
      rw [List.take_cons (by omega)]
      simp only [Nat.add_sub_cancel]
      rw [joinD_cons_of_ne_nil '.' s htake]

lemma getLast?_take :
    ∀ (w : List JStr) (i : Nat), i < w.length → (w.take (i + 1)).getLast? = w[i]? := by
  intro w
  induction w with
  | nil => intro i hi; simp at hi
  | cons x xs ih =>
    intro i hi
    cases i with
    | zero => simp
    | succ j =>
      have hj : j < xs.length := by simpa using hi
      cases xs with
      | nil => simp at hj
      | cons y ys =>
        simp only [List.take_cons, List.getElem?_cons_succ]
        rw [← ih j hj]
        simp [List.getLast?_cons_cons]

lemma kvOk_findPath :
    ∀ (ks : List JStr) (m : NodeRecord) (n : InternalNode),
      kvOkForest m = true → findPath m ks = some n →
      ks.getLast? = some n.value ∧ ks.getLast? = some n.key := by
  intro ks
  induction ks with
  | nil => intro m n _ hf; simp [findPath] at hf
  | cons q qrest ih =>
    intro m n hm hf
    cases qrest with
    | nil =>
      simp only [findPath] at hf
      have := kvOkNode_of_get hm hf
      cases n with
      | mk t v key cs =>
        simp only [kvOkNode, Bool.and_eq_true, decide_eq_true_iff] at this
        simp [InternalNode.value, InternalNode.key, this.1.1, this.1.2]
    | cons q2 qr =>
      simp only [findPath] at hf
      cases hg : getR m q with
      | none => rw [hg] at hf; simp at hf
      | some n₀ =>
        rw [hg] at hf
        have hkv := kvOkNode_of_get hm hg
        cases n₀ with
        | mk t v key cs =>
          simp only [kvOkNode, Bool.and_eq_true, decide_eq_true_iff] at hkv
          have := ih cs n hkv.2 (by simpa [InternalNode.children] using hf)
          simpa [List.getLast?_cons_cons] using this

lemma valsOk_findPath (d : Char) :
    ∀ (ks done : List JStr) (m : NodeRecord) (n : InternalNode),
      valsOkForest d done m = true → findPath m ks = some n →
      n.value = joinD d (done ++ ks) ∧ n.key = joinD d (done ++ ks) := by
  intro ks
  induction ks with
  | nil => intro done m n _ hf; simp [findPath] at hf
  | cons q qrest ih =>
    intro done m n hm hf
    cases qrest with
    | nil =>
      simp only [findPath] at hf
      have := valsOkNode_of_get hm hf
      cases n with
      | mk t v key cs =>
        simp only [valsOkNode, Bool.and_eq_true, decide_eq_true_iff] at this
        simp [InternalNode.value, InternalNode.key, this.1.1, this.1.2]
    | cons q2 qr =>
      simp only [findPath] at hf
      cases hg : getR m q with
      | none => rw [hg] at hf; simp at hf
      | some n₀ =>
        rw [hg] at hf
        have hv := valsOkNode_of_get hm hg
        cases n₀ with
        | mk t v key cs =>
          simp only [valsOkNode, Bool.and_eq_true, decide_eq_true_iff] at hv
          have := ih (done ++ [q]) cs n hv.2
            (by simpa [InternalNode.children] using hf)
          simpa [List.append_assoc] using this

lemma insertSegs_cons_none (d : Char) (asm : Option JStr) (seg : JStr)
    (rest : List JStr) (m : NodeRecord) (hg : getR m (nextVal d asm seg) = none) :
    insertSegs d asm (seg :: rest) m =
      setR m (nextVal d asm seg)
        (.mk seg (nextVal d asm seg) (nextVal d asm seg)
          (insertSegs d (some (nextVal d asm seg)) rest .nil)) := by
  rw [insertSegs, hg]
  rfl

lemma insertSegs_cons_some (d : Char) (asm : Option JStr) (seg : JStr)
    (rest : List JStr) (m : NodeRecord) (t v key : JStr) (cs : NodeRecord)
    (hg : getR m (nextVal d asm seg) = some (.mk t v key cs)) :
    insertSegs d asm (seg :: rest) m =
      setR m (nextVal d asm seg)
        (.mk t v key (insertSegs d (some (nextVal d asm seg)) rest cs)) := by
  rw [insertSegs, hg]
  rfl

lemma insertParts_cons_none (d : Char) (label : JStr) (done : List JStr) (part : JStr)
    (rest : List JStr) (m : NodeRecord) (hg : getR m part = none) :
    insertParts d label done (part :: rest) m =
      setR m part
        (.mk (if rest = [] then label else part)
          (joinD d (done ++ [part])) (joinD d (done ++ [part]))
          (insertParts d label (done ++ [part]) rest .nil)) := by
  rw [insertParts, hg]
  cases rest <;> rfl

lemma insertParts_cons_some (d : Char) (label : JStr) (done : List JStr) (part : JStr)
    (rest : List JStr) (m : NodeRecord) (t v key : JStr) (cs : NodeRecord)
    (hg : getR m part = some (.mk t v key cs)) :
    insertParts d label done (part :: rest) m =
      setR m part
        (.mk (if rest = [] then label else t) v key
          (insertParts d label (done ++ [part]) rest cs)) := by
  rw [insertParts, hg]
  cases rest <;> rfl

lemma findPath_cons_cons (m : NodeRecord) (q q2 : JStr) (qr : List JStr) :
    findPath m (q :: q2 :: qr) =
      (match getR m q with
       | none => none
       | some n => findPath n.children (q2 :: qr)) := rfl

lemma findPath_insertParts_exists (d : Char) (label : JStr) :
    ∀ (parts done : List JStr) (m : NodeRecord) (i : Nat), i < parts.length →
      ∃ n, findPath (insertParts d label done parts m) (parts.take (i + 1)) = some n := by
  intro parts
  induction parts with
  | nil => intro done m i hi; simp at hi
  | cons part rest ih =>
    intro done m i hi
    cases hg : getR m part with
    | none =>
      rw [insertParts_cons_none d label done part rest m hg]
      cases i with
      | zero =>
        exact ⟨_, by
          simp only [List.take_succ_cons, List.take_zero, findPath]
          exact getR_setR_same m part _⟩
      | succ j =>
        have hj : j < rest.length := by simpa using hi
        cases rest with
        | nil => simp at hj
        | cons r rs =>
          obtain ⟨n, hn⟩ := ih (done ++ [part]) .nil j hj
          refine ⟨n, ?_⟩
          simp only [List.take_succ_cons] at hn ⊢
          rw [findPath_cons_cons, getR_setR_same]
          simpa [InternalNode.children] using hn
    | some n₀ =>
      cases n₀ with
      | mk t v key cs =>
        rw [insertParts_cons_some d label done part rest m t v key cs hg]
        cases i with
        | zero =>
          exact ⟨_, by
            simp only [List.take_succ_cons, List.take_zero, findPath]
            exact getR_setR_same m part _⟩
        | succ j =>
          have hj : j < rest.length := by simpa using hi
          cases rest with
          | nil => simp at hj
          | cons r rs =>
            obtain ⟨n, hn⟩ := ih (done ++ [part]) cs j hj
            refine ⟨n, ?_⟩
            simp only [List.take_succ_cons] at hn ⊢
            rw [findPath_cons_cons, getR_setR_same]
            simpa [InternalNode.children] using hn

lemma findPath_insertSegs_exists (d : Char) :
    ∀ (segs : List JStr) (asm : Option JStr) (m : NodeRecord) (i : Nat),
      i < segs.length →
      ∃ n, findPath (insertSegs d asm segs m)
        ((assembledVals d asm segs).take (i + 1)) = some n := by
  intro segs
  induction segs with
  | nil => intro asm m i hi; simp at hi
  | cons seg rest ih =>
    intro asm m i hi
    cases hg : getR m (nextVal d asm seg) with
    | none =>
      rw [insertSegs_cons_none d asm seg rest m hg]
      cases i with
      | zero =>
        exact ⟨_, by
          simp only [assembledVals, List.take_succ_cons, List.take_zero, findPath]
          exact getR_setR_same m _ _⟩
      | succ j =>
        have hj : j < rest.length := by simpa using hi
        cases rest with
        | nil => simp at hj
        | cons r rs =>
          obtain ⟨n, hn⟩ := ih (some (nextVal d asm seg)) .nil j hj
          refine ⟨n, ?_⟩
          simp only [assembledVals, List.take_succ_cons] at hn ⊢
          rw [findPath_cons_cons, getR_setR_same]
          simpa [InternalNode.children] using hn
    | some n₀ =>
      cases n₀ with
      | mk t v key cs =>
        rw [insertSegs_cons_some d asm seg rest m t v key cs hg]
        cases i with
        | zero =>
          exact ⟨_, by
            simp only [assembledVals, List.take_succ_cons, List.take_zero, findPath]
            exact getR_setR_same m _ _⟩
        | succ j =>
          have hj : j < rest.length := by simpa using hi
          cases rest with
          | nil => simp at hj
          | cons r rs =>
            obtain ⟨n, hn⟩ := ih (some (nextVal d asm seg)) cs j hj
            refine ⟨n, ?_⟩
            simp only [assembledVals, List.take_succ_cons] at hn ⊢
            rw [findPath_cons_cons, getR_setR_same]
            simpa [InternalNode.children] using hn

lemma findPath_insertParts_persist (d : Char) (label : JStr) :
    ∀ (parts done ks : List JStr) (m : NodeRecord) (n : InternalNode),
      findPath m ks = some n →
      ∃ n', findPath (insertParts d label done parts m) ks = some n' := by
  intro parts
  induction parts with
  | nil => intro done ks m n hf; exact ⟨n, by simpa [insertParts] using hf⟩
  | cons part rest ih =>
    intro done ks m n hf
    cases ks with
    | nil => simp [findPath] at hf
    | cons q qrest =>
      by_cases hq : q = part
      · subst hq
        cases qrest with
        | nil =>
          simp only [findPath] at hf
          cases n with
          | mk t v key cs =>
            rw [insertParts_cons_some d label done q rest m t v key cs hf]
            exact ⟨_, by simp only [findPath]; exact getR_setR_same m q _⟩
        | cons q2 qr =>
          rw [findPath_cons_cons] at hf
          cases hg : getR m q with
          | none => rw [hg] at hf; simp at hf
          | some n₀ =>
            rw [hg] at hf
            cases n₀ with
            | mk t v key cs =>
              rw [insertParts_cons_some d label done q rest m t v key cs hg]
              obtain ⟨n', hn'⟩ := ih (done ++ [q]) (q2 :: qr) cs n
                (by simpa [InternalNode.children] using hf)
              refine ⟨n', ?_⟩
              rw [findPath_cons_cons, getR_setR_same]
              simpa [InternalNode.children] using hn'
      · have hset : ∀ N, getR (setR m part N) q = getR m q :=
          fun N => getR_setR_ne m part q N hq
        cases hgp : getR m part with
        | none =>
          rw [insertParts_cons_none d label done part rest m hgp]
          cases qrest with
          | nil =>
            simp only [findPath] at hf ⊢
            exact ⟨n, by rw [hset]; exact hf⟩
          | cons q2 qr =>
            rw [findPath_cons_cons] at hf ⊢
            rw [hset]
            exact ⟨n, hf⟩
        | some n₀ =>
          cases n₀ with
          | mk t v key cs =>
            rw [insertParts_cons_some d label done part rest m t v key cs hgp]
            cases qrest with
            | nil =>
              simp only [findPath] at hf ⊢
              exact ⟨n, by rw [hset]; exact hf⟩
            | cons q2 qr =>
              rw [findPath_cons_cons] at hf ⊢
              rw [hset]
              exact ⟨n, hf⟩

lemma findPath_insertSegs_persist (d : Char) :
    ∀ (segs : List JStr) (asm : Option JStr) (ks : List JStr)
      (m : NodeRecord) (n : InternalNode),
      findPath m ks = some n →
      ∃ n', findPath (insertSegs d asm segs m) ks = some n' := by
  intro segs
  induction segs with
  | nil => intro asm ks m n hf; exact ⟨n, by simpa [insertSegs] using hf⟩
  | cons seg rest ih =>
    intro asm ks m n hf
    cases ks with
    | nil => simp [findPath] at hf
    | cons q qrest =>
      by_cases hq : q = nextVal d asm seg
      · subst hq
        cases qrest with
        | nil =>
          simp only [findPath] at hf
          cases n with
          | mk t v key cs =>
            rw [insertSegs_cons_some d asm seg rest m t v key cs hf]
            exact ⟨_, by simp only [findPath]; exact getR_setR_same m _ _⟩
        | cons q2 qr =>
          rw [findPath_cons_cons] at hf
          cases hg : getR m (nextVal d asm seg) with
          | none => rw [hg] at hf; simp at hf
          | some n₀ =>
            rw [hg] at hf
            cases n₀ with
            | mk t v key cs =>
              rw [insertSegs_cons_some d asm seg rest m t v key cs hg]
              obtain ⟨n', hn'⟩ := ih (some (nextVal d asm seg)) (q2 :: qr) cs n
                (by simpa [InternalNode.children] using hf)
              refine ⟨n', ?_⟩
              rw [findPath_cons_cons, getR_setR_same]
              simpa [InternalNode.children] using hn'
      · have hset : ∀ N, getR (setR m (nextVal d asm seg) N) q = getR m q :=
          fun N => getR_setR_ne m (nextVal d asm seg) q N hq
        cases hgp : getR m (nextVal d asm seg) with
        | none =>
          rw [insertSegs_cons_none d asm seg rest m hgp]
          cases qrest with
          | nil =>
            simp only [findPath] at hf ⊢
            exact ⟨n, by rw [hset]; exact hf⟩
          | cons q2 qr =>
            rw [findPath_cons_cons] at hf ⊢
            rw [hset]
            exact ⟨n, hf⟩
        | some n₀ =>
          cases n₀ with
          | mk t v key cs =>
            rw [insertSegs_cons_some d asm seg rest m t v key cs hgp]
            cases qrest with
            | nil =>
              simp only [findPath] at hf ⊢
              exact ⟨n, by rw [hset]; exact hf⟩
            | cons q2 qr =>
              rw [findPath_cons_cons] at hf ⊢
              rw [hset]
              exact ⟨n, hf⟩

lemma findPath_ensureChild_persist {m : NodeRecord} {ks : List JStr} {n : InternalNode}
    (v t : JStr) (hf : findPath m ks = some n) :
    ∃ n', findPath (ensureChild m v t) ks = some n' := by
  unfold ensureChild
  cases hg : getR m v with
  | some n₀ => exact ⟨n, hf⟩
  | none =>
    cases ks with
    | nil => simp [findPath] at hf
    | cons q qrest =>
      by_cases hq : q = v
      · subst hq
        exfalso
        cases qrest with
        | nil =>
          simp only [findPath] at hf
          rw [hg] at hf
          exact Option.noConfusion hf
        | cons q2 qr =>
          rw [findPath_cons_cons, hg] at hf
          exact Option.noConfusion hf
      · have hset : ∀ N, getR (setR m v N) q = getR m q :=
          fun N => getR_setR_ne m v q N hq
        cases qrest with
        | nil =>
          simp only [findPath] at hf ⊢
          exact ⟨n, by rw [hset]; exact hf⟩
        | cons q2 qr =>
          rw [findPath_cons_cons] at hf ⊢
          rw [hset]
          exact ⟨n, hf⟩

lemma findPath_processOption_persist (d : Char) (m : NodeRecord) (o : TreeOption)
    {ks : List JStr} {n : InternalNode} (hf : findPath m ks = some n) :
    ∃ n', findPath (processOption d m o) ks = some n' := by
  obtain ⟨label, value⟩ := o
  cases value with
  | str s =>
    simp only [processOption]
    split
    · exact ⟨n, hf⟩
    · split
      · exact ⟨n, hf⟩
      · exact findPath_insertParts_persist d label _ [] ks m n hf
  | num k => exact ⟨n, hf⟩
  | null => exact ⟨n, hf⟩

lemma findPath_processPath_persist (m : NodeRecord) (p : JStr)
    {ks : List JStr} {n : InternalNode} (hf : findPath m ks = some n) :
    ∃ n', findPath (processPath m p) ks = some n' := by
  simp only [processPath]
  split
  · exact findPath_ensureChild_persist p p hf
  · exact findPath_insertSegs_persist _ _ _ ks m n hf

lemma findPath_foldl_processOption_persist (d : Char) (l : List TreeOption) :
    ∀ (m : NodeRecord) (ks : List JStr) (n : InternalNode),
      findPath m ks = some n →
      ∃ n', findPath (l.foldl (processOption d) m) ks = some n' := by
  induction l with
  | nil => intro m ks n hf; exact ⟨n, hf⟩
  | cons o l ih =>
    intro m ks n hf
    obtain ⟨n', hn'⟩ := findPath_processOption_persist d m o hf
    exact ih _ ks n' hn'

lemma findPath_foldl_processPath_persist (l : List JStr) :
    ∀ (m : NodeRecord) (ks : List JStr) (n : InternalNode),
      findPath m ks = some n →
      ∃ n', findPath (l.foldl processPath m) ks = some n' := by
  induction l with
  | nil => intro m ks n hf; exact ⟨n, hf⟩
  | cons p l ih =>
    intro m ks n hf
    obtain ⟨n', hn'⟩ := findPath_processPath_persist m p hf
    exact ih _ ks n' hn'

lemma trim_ne_of_parts_ne {d : Char} {s : JStr} (h : partsOfStr d s ≠ []) :
    trimJS s ≠ [] := by
  intro he
  apply h
  simp [partsOfStr, he, splitChar]

lemma processOption_usable (d : Char) (m : NodeRecord) (label s : JStr)
    (hp : partsOfStr d s ≠ []) :
    processOption d m ⟨label, .str s⟩ =
      insertParts d label [] (partsOfStr d s) m := by
  simp only [processOption, partsOfStr]
  rw [if_neg (trim_ne_of_parts_ne hp)]
  rw [if_neg (by simpa [partsOfStr] using hp)]

lemma processPath_nondeg (m : NodeRecord) (p : JStr) (h : segsOf p ≠ []) :
    processPath m p = insertSegs (detectDelimiter p) (initAsm p) (segsOf p) m := by
  simp only [processPath, segsOf, initAsm]
  rw [if_neg (by simpa [segsOf] using h)]

lemma detect_eq_slash_iff (p : JStr) : detectDelimiter p = '/' ↔ '/' ∈ p := by
  rw [detectDelimiter_spec]
  by_cases h : '/' ∈ p
  · simp [h]
  · simp [h]

lemma segsOf_mem_ne_nil {p : JStr} {x : JStr} (hx : x ∈ segsOf p) : x ≠ [] := by
  have := List.mem_filter.mp hx
  simpa using this.2

lemma walkVals_getElem (p : JStr) (i : Nat) (hi : i < (segsOf p).length) :
    (walkVals p)[i]? = some (amendedPathValue p (i + 1)) := by
  unfold walkVals amendedPathValue initAsm
  rcases detectDelimiter_cases p with hd | hd
  · have hmem : '/' ∈ p := (detect_eq_slash_iff p).mp hd
    rw [hd]
    simp only [if_pos rfl, if_pos hmem]
    have := assembledVals_slash (segsOf p) [] i hi
    simpa using this
  · have hmem : '/' ∉ p := by
      intro hc
      rw [(detect_eq_slash_iff p).mpr hc] at hd
      exact absurd hd (by decide)
    rw [hd]
    have hne : ('.' : Char) ≠ '/' := by decide
    simp only [if_neg hne, if_neg hmem]
    exact assembledVals_dot_none (segsOf p) (fun x hx => segsOf_mem_ne_nil hx) i hi

lemma buildInternal_append_cons (l₁ : List TreeOption) (o : TreeOption)
    (l₂ : List TreeOption) (d : Char) :
    buildInternal (l₁ ++ o :: l₂) d =
      l₂.foldl (processOption d) (processOption d (buildInternal l₁ d) o) := by
  unfold buildInternal
  rw [List.foldl_append]
  rfl

lemma buildTreeDataInternal_append_cons (l₁ : List JStr) (p : JStr) (l₂ : List JStr) :
    buildTreeDataInternal (l₁ ++ p :: l₂) =
      l₂.foldl processPath (processPath (buildTreeDataInternal l₁) p) := by
  unfold buildTreeDataInternal
  rw [List.foldl_append]
  rfl

/-- Counterexample to claim C1 as stated: in `buildTreeData` (the
raw-string variant) the input `"a/b/c"` does not yield the root chain of
values `a`, `a/b`, `a/b/c`: every assembled value carries an extra leading
`'/'` (`assembled` starts at `''` and `nextValue` is
`` `${assembled}/${segment}` ``), so the chain is `/a`, `/a/b`, `/a/b/c`. -/
theorem claim_C1_counterexample :
    buildTreeData [js "a/b/c"] =
      .cons (.mk (js "/a") (js "/a") (js "a")
        (.cons (.mk (js "/a/b") (js "/a/b") (js "b")
          (.cons (.mk (js "/a/b/c") (js "/a/b/c") (js "c") .nil) .nil)) .nil)) .nil ∧
    js "/a" ≠ js "a" := by
  constructor
  · decide
  · decide

/-- Claim C1, amended.  For `buildTreeSelectData` the claim holds as
stated: every node holds as `value` (and `key`) the join of the segments
leading to it, with no extra leading or trailing delimiter (conjunct 1:
the dictionary invariant; conjunct 2: for every entry of the input and
every depth `i` of its walk, the node reached at depth `i` exists in the
final tree and its `value` and `key` are the join of the first `i + 1`
segments).  For `buildTreeData` the claim must be amended: the node of
depth `i` carries the join of the first `i + 1` segments *with a leading
`'/'`* when the entry is slash-delimited, and the plain join when it is
dot-delimited (conjuncts 3 and 4, `amendedPathValue`).  In particular
`buildTreeSelectData` on `"a/b/c"` yields the chain `a`, `a/b`, `a/b/c`
(conjunct 5), while `buildTreeData` yields `/a`, `/a/b`, `/a/b/c`. -/
theorem claim_C1_amended :
    (∀ (options : List TreeOption) (d : Char),
        valsOkForest d [] (buildInternal options d) = true) ∧
    (∀ (l₁ : List TreeOption) (o : TreeOption) (l₂ : List TreeOption)
        (d : Char) (s : JStr), o.value = .str s →
        ∀ i, i < (partsOfStr d s).length →
        ∃ n, findPath (buildInternal (l₁ ++ o :: l₂) d)
            ((partsOfStr d s).take (i + 1)) = some n ∧
          n.value = joinD d ((partsOfStr d s).take (i + 1)) ∧
          n.key = joinD d ((partsOfStr d s).take (i + 1))) ∧
    (∀ values : List JStr, kvOkForest (buildTreeDataInternal values) = true) ∧
    (∀ (l₁ : List JStr) (p : JStr) (l₂ : List JStr),
        ∀ i, i < (segsOf p).length →
        ∃ n, findPath (buildTreeDataInternal (l₁ ++ p :: l₂))
            ((walkVals p).take (i + 1)) = some n ∧
          n.value = amendedPathValue p (i + 1) ∧
          n.key = amendedPathValue p (i + 1)) ∧
    (buildTreeSelectData [⟨js "c", .str (js "a/b/c")⟩] '/' =
      .cons (.mk (js "a") (js "a") (js "a") true
        (.cons (.mk (js "b") (js "a/b") (js "a/b") true
          (.cons (.mk (js "c") (js "a/b/c") (js "a/b/c") true .nil) .nil)) .nil)) .nil) := by
  refine ⟨valsOk_buildInternal, ?_, kvOk_buildTreeDataInternal, ?_, by decide⟩
  · intro l₁ o l₂ d s hos i hi
    obtain ⟨label, value⟩ := o
    simp only at hos
    subst hos
    have hpne : partsOfStr d s ≠ [] := by
      intro he
      rw [he] at hi
      simp at hi
    have hstep := buildInternal_append_cons l₁ ⟨label, .str s⟩ l₂ d
    rw [processOption_usable d (buildInternal l₁ d) label s hpne] at hstep
    obtain ⟨n₁, hn₁⟩ :=
      findPath_insertParts_exists d label (partsOfStr d s) [] (buildInternal l₁ d) i hi
    obtain ⟨n', hn'⟩ :=
      findPath_foldl_processOption_persist d l₂ _ _ n₁ hn₁
    rw [← hstep] at hn'
    have hfields := valsOk_findPath d ((partsOfStr d s).take (i + 1)) []
      (buildInternal (l₁ ++ ⟨label, .str s⟩ :: l₂) d) n'
      (valsOk_buildInternal _ d) hn'
    exact ⟨n', hn', by simpa using hfields.1, by simpa using hfields.2⟩
  · intro l₁ p l₂ i hi
    have hsne : segsOf p ≠ [] := by
      intro he
      rw [he] at hi
      simp at hi
    have hstep := buildTreeDataInternal_append_cons l₁ p l₂
    rw [processPath_nondeg (buildTreeDataInternal l₁) p hsne] at hstep
    obtain ⟨n₁, hn₁⟩ := findPath_insertSegs_exists (detectDelimiter p)
      (segsOf p) (initAsm p) (buildTreeDataInternal l₁) i hi
    obtain ⟨n', hn'⟩ := findPath_foldl_processPath_persist l₂ _ _ n₁ hn₁
    rw [← hstep] at hn'
    have hwlen : i < (walkVals p).length := by
      unfold walkVals
      rw [assembledVals_length]
      exact hi
    have hlast := kvOk_findPath ((walkVals p).take (i + 1))
      (buildTreeDataInternal (l₁ ++ p :: l₂)) n'
      (kvOk_buildTreeDataInternal _) (by exact hn')
    rw [getLast?_take (walkVals p) i hwlen, walkVals_getElem p i hi] at hlast
    refine ⟨n', by exact hn', ?_, ?_⟩
    · exact (Option.some.injEq _ _ ▸ hlast.1 : _ = _).symm ▸ rfl
    · exact (Option.some.injEq _ _ ▸ hlast.2 : _ = _).symm ▸ rfl

/-- Witness for the amended claim C1: a concrete entry `"a/b"` processed
by each variant, checked at depth `1` (the node `a/b` for the sorted
variant, `/a/b` for the raw variant). -/
theorem claim_C1_amended_witness :
    (∃ n, findPath (buildInternal ([] ++ ⟨js "L", .str (js "a/b")⟩ :: []) '/')
        ((partsOfStr '/' (js "a/b")).take 2) = some n ∧
      n.value = joinD '/' ((partsOfStr '/' (js "a/b")).take 2) ∧
      n.key = joinD '/' ((partsOfStr '/' (js "a/b")).take 2)) ∧
    (∃ n, findPath (buildTreeDataInternal ([] ++ js "a/b" :: []))
        ((walkVals (js "a/b")).take 2) = some n ∧
      n.value = amendedPathValue (js "a/b") 2 ∧
      n.key = amendedPathValue (js "a/b") 2) :=
  ⟨claim_C1_amended.2.1 [] ⟨js "L", .str (js "a/b")⟩ [] '/' (js "a/b") rfl 1 (by decide),
   claim_C1_amended.2.2.2.1 [] (js "a/b") [] 1 (by decide)⟩

lemma findPath_nil_record (ks : List JStr) (hne : ks ≠ []) :
    findPath .nil ks = none := by
  cases ks with
  | nil => exact absurd rfl hne
  | cons q qrest =>
    cases qrest with
    | nil => rfl
    | cons q2 qr => rfl

lemma insertParts_final_title (d : Char) (label : JStr) :
    ∀ (parts done : List JStr) (m : NodeRecord), parts ≠ [] →
      ∃ n, findPath (insertParts d label done parts m) parts = some n ∧
        n.title = label := by
  intro parts
  induction parts with
  | nil => intro done m h; exact absurd rfl h
  | cons part rest ih =>
    intro done m _
    cases rest with
    | nil =>
      cases hg : getR m part with
      | none =>
        rw [insertParts_cons_none d label done part [] m hg]
        exact ⟨_, getR_setR_same m part _, rfl⟩
      | some n₀ =>
        cases n₀ with
        | mk t v key cs =>
          rw [insertParts_cons_some d label done part [] m t v key cs hg]
          exact ⟨_, getR_setR_same m part _, rfl⟩
    | cons r rs =>
      cases hg : getR m part with
      | none =>
        rw [insertParts_cons_none d label done part (r :: rs) m hg]
        obtain ⟨n, hn, ht⟩ := ih (done ++ [part]) .nil (by simp)
        refine ⟨n, ?_, ht⟩
        rw [findPath_cons_cons, getR_setR_same]
        simpa [InternalNode.children] using hn
      | some n₀ =>
        cases n₀ with
        | mk t v key cs =>
          rw [insertParts_cons_some d label done part (r :: rs) m t v key cs hg]
          obtain ⟨n, hn, ht⟩ := ih (done ++ [part]) cs (by simp)
          refine ⟨n, ?_, ht⟩
          rw [findPath_cons_cons, getR_setR_same]
          simpa [InternalNode.children] using hn

lemma insertParts_created_title (d : Char) (label : JStr) :
    ∀ (parts done : List JStr) (m : NodeRecord) (i : Nat), i + 1 < parts.length →
      findPath m (parts.take (i + 1)) = none →
      ∃ n, findPath (insertParts d label done parts m) (parts.take (i + 1)) = some n ∧
        some n.title = parts[i]? := by
  intro parts
  induction parts with
  | nil => intro done m i hi _; simp at hi
  | cons part rest ih =>
    intro done m i hi hnone
    cases i with
    | zero =>
      have hrne : rest ≠ [] := by
        intro he
        rw [he] at hi
        simp at hi
      simp only [List.take_succ_cons, List.take_zero, findPath] at hnone
      cases rest with
      | nil => exact absurd rfl hrne
      | cons r rs =>
        rw [insertParts_cons_none d label done part (r :: rs) m hnone]
        exact ⟨_, getR_setR_same m part _, rfl⟩
    | succ j =>
      have hj : j + 1 < rest.length := by simpa using hi
      have hrne : rest ≠ [] := by
        intro he
        rw [he] at hj
        simp at hj
      cases rest with
      | nil => exact absurd rfl hrne
      | cons r rs =>
        simp only [List.take_succ_cons] at hnone ⊢
        cases hg : getR m part with
        | none =>
          rw [insertParts_cons_none d label done part (r :: rs) m hg]
          have hn₀ : findPath NodeRecord.nil ((r :: rs).take (j + 1)) = none :=
            findPath_nil_record _ (by simp)
          obtain ⟨n, hn, ht⟩ := ih (done ++ [part]) .nil j hj hn₀
          refine ⟨n, ?_, by simpa using ht⟩
          have htk : (r :: rs).take (j + 1) = r :: rs.take j := by simp
          rw [htk] at hn
          rw [findPath_cons_cons, getR_setR_same]
          simpa [InternalNode.children] using hn
        | some n₀ =>
          cases n₀ with
          | mk t v key cs =>
            rw [insertParts_cons_some d label done part (r :: rs) m t v key cs hg]
            have htk : (r :: rs).take (j + 1) = r :: rs.take j := by simp
            rw [findPath_cons_cons, hg] at hnone
            have hcs : findPath cs (r :: rs.take j) = none := by
              simpa [InternalNode.children] using hnone
            have hcs' : findPath cs ((r :: rs).take (j + 1)) = none := by
              rw [htk]
              exact hcs
            obtain ⟨n, hn, ht⟩ := ih (done ++ [part]) cs j hj hcs'
            rw [htk] at hn
            refine ⟨n, ?_, by simpa using ht⟩
            rw [findPath_cons_cons, getR_setR_same]
            simpa [InternalNode.children] using hn

/-- Claim C8: for every usable entry of `buildTreeSelectData`, right after
the entry's walk (a) the node reached at the entry's final segment has its
`title` set to the entry's supplied label, and (b) every node the entry
created for one of its non-final segments has `title` equal to that
segment. -/
theorem claim_C8 (d : Char) (m : NodeRecord) (o : TreeOption) (s : JStr)
    (hos : o.value = .str s) (hne : partsOfStr d s ≠ []) :
    (∃ n, findPath (processOption d m o) (partsOfStr d s) = some n ∧
        n.title = o.label) ∧
    (∀ i, i + 1 < (partsOfStr d s).length →
      findPath m ((partsOfStr d s).take (i + 1)) = none →
      ∃ n, findPath (processOption d m o) ((partsOfStr d s).take (i + 1)) = some n ∧
        some n.title = (partsOfStr d s)[i]?) := by
  obtain ⟨label, value⟩ := o
  simp only at hos
  subst hos
  rw [processOption_usable d m label s hne]
  constructor
  · exact insertParts_final_title d label (partsOfStr d s) [] m hne
  · intro i hi hn
    exact insertParts_created_title d label (partsOfStr d s) [] m i hi hn

/-- Witness for claim C8: the entry `{label: "L", value: "a/b"}` on an
empty dictionary — the leaf `a/b` gets title `"L"`, the created
intermediate `a` gets title `"a"`. -/
theorem claim_C8_witness :
    ((∃ n, findPath (processOption '/' .nil ⟨js "L", .str (js "a/b")⟩)
        (partsOfStr '/' (js "a/b")) = some n ∧ n.title = js "L") ∧
    (∀ i, i + 1 < (partsOfStr '/' (js "a/b")).length →
      findPath .nil ((partsOfStr '/' (js "a/b")).take (i + 1)) = none →
      ∃ n, findPath (processOption '/' .nil ⟨js "L", .str (js "a/b")⟩)
          ((partsOfStr '/' (js "a/b")).take (i + 1)) = some n ∧
        some n.title = (partsOfStr '/' (js "a/b"))[i]?)) ∧
    (partsOfStr '/' (js "a/b")).length = 2 :=
  ⟨claim_C8 '/' .nil ⟨js "L", .str (js "a/b")⟩ (js "a/b") rfl (by decide), by decide⟩

lemma insertParts_title_preserved (d : Char) (label : JStr) :
    ∀ (parts done p : List JStr) (m : NodeRecord) (n : InternalNode),
      findPath m p = some n → p ≠ parts →
      ∃ n', findPath (insertParts d label done parts m) p = some n' ∧
        n'.title = n.title := by
  intro parts
  induction parts with
  | nil => intro done p m n hf _; exact ⟨n, by simpa [insertParts] using hf, rfl⟩
  | cons part rest ih =>
    intro done p m n hf hne
    cases p with
    | nil => simp [findPath] at hf
    | cons j pr =>
      by_cases hj : j = part
      · subst hj
        cases pr with
        | nil =>
          have hrne : rest ≠ [] := by
            intro he
            rw [he] at hne
            exact hne rfl
          simp only [findPath] at hf
          cases n with
          | mk t v key cs =>
            cases rest with
            | nil => exact absurd rfl hrne
            | cons r rs =>
              rw [insertParts_cons_some d label done j (r :: rs) m t v key cs hf]
              exact ⟨_, getR_setR_same m j _, rfl⟩
        | cons p2 ps =>
          rw [findPath_cons_cons] at hf
          cases hg : getR m j with
          | none => rw [hg] at hf; simp at hf
          | some n₀ =>
            rw [hg] at hf
            cases n₀ with
            | mk t v key cs =>
              have hfc : findPath cs (p2 :: ps) = some n := by
                simpa [InternalNode.children] using hf
              cases rest with
              | nil =>
                rw [insertParts_cons_some d label done j [] m t v key cs hg]
                refine ⟨n, ?_, rfl⟩
                rw [findPath_cons_cons, getR_setR_same]
                simpa [InternalNode.children, insertParts] using hfc
              | cons r rs =>
                have hne' : (p2 :: ps) ≠ (r :: rs) := by
                  intro he
                  rw [he] at hne
                  exact hne rfl
                rw [insertParts_cons_some d label done j (r :: rs) m t v key cs hg]
                obtain ⟨n', hn', ht'⟩ := ih (done ++ [j]) (p2 :: ps) cs n hfc hne'
                refine ⟨n', ?_, ht'⟩
                rw [findPath_cons_cons, getR_setR_same]
                simpa [InternalNode.children] using hn'
      · have hset : ∀ N, getR (setR m part N) j = getR m j :=
          fun N => getR_setR_ne m part j N hj
        cases hgp : getR m part with
        | none =>
          rw [insertParts_cons_none d label done part rest m hgp]
          cases pr with
          | nil =>
            simp only [findPath] at hf ⊢
            exact ⟨n, by rw [hset]; exact hf, rfl⟩
          | cons p2 ps =>
            rw [findPath_cons_cons] at hf ⊢
            rw [hset]
            exact ⟨n, hf, rfl⟩
        | some n₀ =>
          cases n₀ with
          | mk t v key cs =>
            rw [insertParts_cons_some d label done part rest m t v key cs hgp]
            cases pr with
            | nil =>
              simp only [findPath] at hf ⊢
              exact ⟨n, by rw [hset]; exact hf, rfl⟩
            | cons p2 ps =>
              rw [findPath_cons_cons] at hf ⊢
              rw [hset]
              exact ⟨n, hf, rfl⟩

lemma processOption_title_preserved (d : Char) (m : NodeRecord) (o : TreeOption)
    {p : List JStr} {n : InternalNode} (hf : findPath m p = some n)
    (hno : partsOfOpt d o ≠ some p) :
    ∃ n', findPath (processOption d m o) p = some n' ∧ n'.title = n.title := by
  obtain ⟨label, value⟩ := o
  cases value with
  | str s =>
    have hps : partsOfStr d s ≠ p := by
      intro he
      exact hno (by simp [partsOfOpt, he])
    simp only [processOption]
    split
    · exact ⟨n, hf, rfl⟩
    · split
      · exact ⟨n, hf, rfl⟩
      · exact insertParts_title_preserved d label _ [] p m n hf (Ne.symm hps)
  | num k => exact ⟨n, hf, rfl⟩
  | null => exact ⟨n, hf, rfl⟩

lemma foldl_title_preserved (d : Char) (l : List TreeOption) (p : List JStr) :
    ∀ (m : NodeRecord) (n : InternalNode), findPath m p = some n →
      (∀ o' ∈ l, partsOfOpt d o' ≠ some p) →
      ∃ n', findPath (l.foldl (processOption d) m) p = some n' ∧
        n'.title = n.title := by
  induction l with
  | nil => intro m n hf _; exact ⟨n, hf, rfl⟩
  | cons o l ih =>
    intro m n hf hl
    obtain ⟨n₁, hn₁, ht₁⟩ :=
      processOption_title_preserved d m o hf (hl o (by simp))
    obtain ⟨n', hn', ht'⟩ := ih _ n₁ hn₁ (fun o' ho' => hl o' (by simp [ho']))
    exact ⟨n', hn', ht'.trans ht₁⟩

/-- Claim C10: in `buildTreeSelectData`, when several entries resolve to
the same segment path, the node for that path carries the label of the
last such entry in input order — including when a later entry's leaf is a
node an earlier entry created as an intermediate ancestor (the walk sets
`title` unconditionally at its final segment, and later entries with other
paths never touch it). -/
theorem claim_C10 (d : Char) (l₁ : List TreeOption) (o : TreeOption)
    (l₂ : List TreeOption) (s : JStr)
    (hos : o.value = .str s) (hne : partsOfStr d s ≠ [])
    (hl₂ : ∀ o' ∈ l₂, partsOfOpt d o' ≠ some (partsOfStr d s)) :
    ∃ n, findPath (buildInternal (l₁ ++ o :: l₂) d) (partsOfStr d s) = some n ∧
      n.title = o.label := by
  obtain ⟨label, value⟩ := o
  simp only at hos
  subst hos
  rw [buildInternal_append_cons]
  rw [processOption_usable d (buildInternal l₁ d) label s hne]
  obtain ⟨n₁, hn₁, ht₁⟩ :=
    insertParts_final_title d label (partsOfStr d s) [] (buildInternal l₁ d) hne
  obtain ⟨n', hn', ht'⟩ := foldl_title_preserved d l₂ (partsOfStr d s) _ n₁ hn₁ hl₂
  exact ⟨n', hn', ht'.trans ht₁⟩

/-- Witness for claim C10: entries `{A, "a/b"}` then `{B, "a"}` — the node
`a`, first created as an intermediate ancestor with title `"a"`, ends with
title `"B"`, the label of the last entry whose path is `a`. -/
theorem claim_C10_witness :
    ∃ n, findPath (buildInternal ([⟨js "A", .str (js "a/b")⟩] ++
        ⟨js "B", .str (js "a")⟩ :: []) '/') (partsOfStr '/' (js "a")) = some n ∧
      n.title = js "B" :=
  claim_C10 '/' [⟨js "A", .str (js "a/b")⟩] ⟨js "B", .str (js "a")⟩ []
    (js "a") rfl (by decide) (by intro o' ho'; simp at ho')

lemma FEquiv.keys {m₁ m₂ : NodeRecord} (h : FEquiv m₁ m₂) :
    (keysR m₁).Perm (keysR m₂) := by
  cases h with
  | mk _ _ hk _ => exact hk

lemma FEquiv.point {m₁ m₂ : NodeRecord} (h : FEquiv m₁ m₂) {k : JStr}
    {n₁ n₂ : InternalNode} (h₁ : getR m₁ k = some n₁) (h₂ : getR m₂ k = some n₂) :
    NEquiv n₁ n₂ := by
  cases h with
  | mk _ _ _ hpt => exact hpt k n₁ n₂ h₁ h₂

lemma FEquiv.getR_none_iff {m₁ m₂ : NodeRecord} (h : FEquiv m₁ m₂) (k : JStr) :
    getR m₁ k = none ↔ getR m₂ k = none := by
  rw [getR_eq_none_iff, getR_eq_none_iff]
  exact not_congr h.keys.mem_iff

lemma getR_isSome_of_ne_none {m : NodeRecord} {k : JStr} (h : getR m k ≠ none) :
    ∃ n, getR m k = some n := by
  cases hg : getR m k with
  | none => exact absurd hg h
  | some n => exact ⟨n, rfl⟩

lemma FEquiv.getR_some_of {m₁ m₂ : NodeRecord} (h : FEquiv m₁ m₂) {k : JStr}
    {n₁ : InternalNode} (h₁ : getR m₁ k = some n₁) :
    ∃ n₂, getR m₂ k = some n₂ ∧ NEquiv n₁ n₂ := by
  have hne : getR m₂ k ≠ none := by
    intro he
    rw [← h.getR_none_iff k] at he
    rw [he] at h₁
    exact Option.noConfusion h₁
  obtain ⟨n₂, hn₂⟩ := getR_isSome_of_ne_none hne
  exact ⟨n₂, hn₂, h.point h₁ hn₂⟩

lemma NEquiv.value_eq {n₁ n₂ : InternalNode} (h : NEquiv n₁ n₂) :
    n₁.value = n₂.value := by
  cases h with
  | mk t₁ t₂ v key c₁ c₂ _ => rfl

lemma NEquiv.key_eq {n₁ n₂ : InternalNode} (h : NEquiv n₁ n₂) :
    n₁.key = n₂.key := by
  cases h with
  | mk t₁ t₂ v key c₁ c₂ _ => rfl

lemma NEquiv.children_equiv {n₁ n₂ : InternalNode} (h : NEquiv n₁ n₂) :
    FEquiv n₁.children n₂.children := by
  cases h with
  | mk t₁ t₂ v key c₁ c₂ hc => exact hc

mutual
lemma NEquiv_refl : ∀ n : InternalNode, NEquiv n n
  | .mk t v key cs => .mk t t v key cs cs (FEquiv_refl cs)
lemma FEquiv_refl : ∀ m : NodeRecord, FEquiv m m
  | .nil => .mk _ _ (List.Perm.refl _) (fun k n₁ n₂ h₁ _ => by simp [getR] at h₁)
  | .cons k' n' rest => by
    refine .mk _ _ (List.Perm.refl _) ?_
    intro k n₁ n₂ h₁ h₂
    by_cases hk : k' = k
    · subst hk
      have e₁ : n' = n₁ := by simpa [getR] using h₁
      have e₂ : n' = n₂ := by simpa [getR] using h₂
      rw [← e₁, ← e₂]
      exact NEquiv_refl n'
    · simp only [getR, if_neg hk] at h₁ h₂
      cases FEquiv_refl rest with
      | mk _ _ _ hpt => exact hpt k n₁ n₂ h₁ h₂
end

lemma sizeOf_getR : ∀ {m : NodeRecord} {k : JStr} {n : InternalNode},
    getR m k = some n → sizeOf n < sizeOf m := by
  intro m
  induction m using NodeRecord.inductionOn with
  | nil => intro k n h; simp [getR] at h
  | cons k' n' rest ih =>
    intro k n h
    by_cases hk : k' = k
    · subst hk
      have e : n' = n := by simpa [getR] using h
      subst e
      simp only [NodeRecord.cons.sizeOf_spec]
      omega
    · simp only [getR, if_neg hk] at h
      have := ih h
      simp only [NodeRecord.cons.sizeOf_spec]
      omega

mutual
lemma NEquiv_trans : ∀ (n₁ n₂ n₃ : InternalNode),
    NEquiv n₁ n₂ → NEquiv n₂ n₃ → NEquiv n₁ n₃
  | .mk t₁ v₁ k₁ c₁, n₂, n₃, h₁₂, h₂₃ => by
    cases h₁₂ with
    | mk _ t₂ _ _ _ c₂ hc₁₂ =>
      cases h₂₃ with
      | mk _ t₃ _ _ _ c₃ hc₂₃ =>
        exact .mk t₁ t₃ v₁ k₁ c₁ c₃ (FEquiv_trans c₁ c₂ c₃ hc₁₂ hc₂₃)
termination_by n₁ _ _ _ _ => sizeOf n₁
lemma FEquiv_trans : ∀ (m₁ m₂ m₃ : NodeRecord),
    FEquiv m₁ m₂ → FEquiv m₂ m₃ → FEquiv m₁ m₃
  | m₁, m₂, m₃, h₁₂, h₂₃ => by
    refine .mk _ _ (h₁₂.keys.trans h₂₃.keys) ?_
    intro k n₁ n₃ hg₁ hg₃
    obtain ⟨n₂, hg₂, he₁₂⟩ := h₁₂.getR_some_of hg₁
    exact NEquiv_trans n₁ n₂ n₃ he₁₂ (h₂₃.point hg₂ hg₃)
termination_by m₁ _ _ _ _ => sizeOf m₁
decreasing_by
  exact sizeOf_getR hg₁
end

lemma setR_setR (m : NodeRecord) (k : JStr) (a b : InternalNode) :
    setR (setR m k a) k b = setR m k b := by
  induction m using NodeRecord.inductionOn with
  | nil => simp [setR]
  | cons k' n rest ih =>
    by_cases h : k' = k
    · simp [setR, h]
    · simp [setR, h, ih]

lemma setR_getR_self {m : NodeRecord} {k : JStr} {n : InternalNode}
    (h : getR m k = some n) : setR m k n = m := by
  induction m using NodeRecord.inductionOn with
  | nil => simp [getR] at h
  | cons k' n' rest ih =>
    by_cases hk : k' = k
    · subst hk
      have e : n' = n := by simpa [getR] using h
      simp [setR, e]
    · simp only [getR, if_neg hk] at h
      simp [setR, hk, ih h]

lemma mem_keysR_setR (m : NodeRecord) (k q : JStr) (v : InternalNode) :
    q ∈ keysR (setR m k v) ↔ q ∈ keysR m ∨ q = k := by
  rw [keysR_setR]
  by_cases h : k ∈ keysR m
  · simp only [if_pos h]
    constructor
    · exact Or.inl
    · rintro (hq | rfl)
      · exact hq
      · exact h
  · simp [h]

lemma FEquiv_setR {m₁ m₂ : NodeRecord} {k : JStr} {N₁ N₂ : InternalNode}
    (h : FEquiv m₁ m₂) (hN : NEquiv N₁ N₂) :
    FEquiv (setR m₁ k N₁) (setR m₂ k N₂) := by
  refine .mk _ _ ?_ ?_
  · rw [keysR_setR, keysR_setR]
    by_cases hk : k ∈ keysR m₁
    · rw [if_pos hk, if_pos (h.keys.mem_iff.mp hk)]
      exact h.keys
    · rw [if_neg hk, if_neg (fun hc => hk (h.keys.mem_iff.mpr hc))]
      exact h.keys.append_right [k]
  · intro q n₁ n₂ hg₁ hg₂
    by_cases hq : q = k
    · subst hq
      rw [getR_setR_same] at hg₁ hg₂
      injection hg₁ with e₁
      injection hg₂ with e₂
      rw [← e₁, ← e₂]
      exact hN
    · rw [getR_setR_ne m₁ k q N₁ hq] at hg₁
      rw [getR_setR_ne m₂ k q N₂ hq] at hg₂
      exact h.point hg₁ hg₂

lemma insertParts_cons_eq (d : Char) (label : JStr) (done : List JStr) (part : JStr)
    (rest : List JStr) (m : NodeRecord) :
    insertParts d label done (part :: rest) m =
      setR m part (walkNode d label done part rest m) := by
  cases hg : getR m part with
  | none =>
    rw [insertParts_cons_none d label done part rest m hg]
    unfold walkNode
    rw [hg]
  | some n =>
    cases n with
    | mk t v key cs =>
      rw [insertParts_cons_some d label done part rest m t v key cs hg]
      unfold walkNode
      rw [hg]

lemma walkNode_lookup_congr (d : Char) (label : JStr) (done : List JStr) (part : JStr)
    (rest : List JStr) {m₁ m₂ : NodeRecord}
    (h : getR m₁ part = getR m₂ part) :
    walkNode d label done part rest m₁ = walkNode d label done part rest m₂ := by
  unfold walkNode
  rw [h]

lemma insertSegs_cons_eq (d : Char) (asm : Option JStr) (seg : JStr)
    (rest : List JStr) (m : NodeRecord) :
    insertSegs d asm (seg :: rest) m =
      setR m (nextVal d asm seg) (segNode d asm seg rest m) := by
  cases hg : getR m (nextVal d asm seg) with
  | none =>
    rw [insertSegs_cons_none d asm seg rest m hg]
    unfold segNode
    rw [hg]
  | some n =>
    cases n with
    | mk t v key cs =>
      rw [insertSegs_cons_some d asm seg rest m t v key cs hg]
      unfold segNode
      rw [hg]

lemma segNode_lookup_congr (d : Char) (asm : Option JStr) (seg : JStr)
    (rest : List JStr) {m₁ m₂ : NodeRecord}
    (h : getR m₁ (nextVal d asm seg) = getR m₂ (nextVal d asm seg)) :
    segNode d asm seg rest m₁ = segNode d asm seg rest m₂ := by
  unfold segNode
  rw [h]

lemma setR_comm {m : NodeRecord} {k₁ k₂ : JStr} (a b : InternalNode)
    (hk : k₁ ≠ k₂) :
    FEquiv (setR (setR m k₁ a) k₂ b) (setR (setR m k₂ b) k₁ a) := by
  refine .mk _ _ ?_ ?_
  · rw [keysR_setR, keysR_setR, keysR_setR, keysR_setR]
    by_cases h₁ : k₁ ∈ keysR m
    · by_cases h₂ : k₂ ∈ keysR m
      · simp [h₁, h₂]
      · have c₁ : k₁ ∈ keysR m ++ [k₂] := List.mem_append_left _ h₁
        simp only [if_pos h₁, if_neg h₂, if_pos c₁]
        exact List.Perm.refl _
    · by_cases h₂ : k₂ ∈ keysR m
      · have c₂ : k₂ ∈ keysR m ++ [k₁] := List.mem_append_left _ h₂
        simp only [if_neg h₁, if_pos h₂, if_pos c₂, if_neg h₁]
        exact List.Perm.refl _
      · have c₁ : k₂ ∉ keysR m ++ [k₁] := by
          simp only [List.mem_append, List.mem_singleton]
          rintro (hc | hc)
          · exact h₂ hc
          · exact hk hc.symm
        have c₂ : k₁ ∉ keysR m ++ [k₂] := by
          simp only [List.mem_append, List.mem_singleton]
          rintro (hc | hc)
          · exact h₁ hc
          · exact hk hc
        simp only [if_neg h₁, if_neg h₂, if_neg c₁, if_neg c₂]
        rw [List.append_assoc, List.append_assoc]
        exact List.Perm.append_left (keysR m) (List.Perm.swap k₂ k₁ [])
  · intro q n₁ n₂ hg₁ hg₂
    by_cases hq₂ : q = k₂
    · subst hq₂
      rw [getR_setR_same] at hg₁
      rw [getR_setR_ne _ k₁ q a (Ne.symm hk), getR_setR_same] at hg₂
      injection hg₁ with e₁
      injection hg₂ with e₂
      rw [← e₁, ← e₂]
      exact NEquiv_refl b
    · by_cases hq₁ : q = k₁
      · subst hq₁
        rw [getR_setR_ne _ k₂ q b hk, getR_setR_same] at hg₁
        rw [getR_setR_same] at hg₂
        injection hg₁ with e₁
        injection hg₂ with e₂
        rw [← e₁, ← e₂]
        exact NEquiv_refl a
      · rw [getR_setR_ne _ k₂ q b hq₂, getR_setR_ne _ k₁ q a hq₁] at hg₁
        rw [getR_setR_ne _ k₁ q a hq₁, getR_setR_ne _ k₂ q b hq₂] at hg₂
        rw [hg₁] at hg₂
        injection hg₂ with e
        rw [← e]
        exact NEquiv_refl n₁

lemma FEquiv_insertParts (d : Char) (label : JStr) :
    ∀ (parts done : List JStr) {m₁ m₂ : NodeRecord}, FEquiv m₁ m₂ →
      FEquiv (insertParts d label done parts m₁) (insertParts d label done parts m₂) := by
  intro parts
  induction parts with
  | nil => intro done m₁ m₂ h; simpa [insertParts] using h
  | cons part rest ih =>
    intro done m₁ m₂ h
    rw [insertParts_cons_eq, insertParts_cons_eq]
    refine FEquiv_setR h ?_
    cases hg₁ : getR m₁ part with
    | none =>
      have hg₂ : getR m₂ part = none := (h.getR_none_iff part).mp hg₁
      unfold walkNode
      rw [hg₁, hg₂]
      exact .mk _ _ _ _ _ _ (ih (done ++ [part]) (FEquiv_refl _))
    | some n₁ =>
      obtain ⟨n₂, hg₂, hn⟩ := h.getR_some_of hg₁
      cases n₁ with
      | mk t₁ v key c₁ =>
        cases hn with
        | mk _ t₂ _ _ _ c₂ hc =>
          unfold walkNode
          rw [hg₁, hg₂]
          exact .mk _ _ _ _ _ _ (ih (done ++ [part]) hc)

lemma FEquiv_insertSegs (d : Char) :
    ∀ (segs : List JStr) (asm : Option JStr) {m₁ m₂ : NodeRecord}, FEquiv m₁ m₂ →
      FEquiv (insertSegs d asm segs m₁) (insertSegs d asm segs m₂) := by
  intro segs
  induction segs with
  | nil => intro asm m₁ m₂ h; simpa [insertSegs] using h
  | cons seg rest ih =>
    intro asm m₁ m₂ h
    rw [insertSegs_cons_eq, insertSegs_cons_eq]
    refine FEquiv_setR h ?_
    cases hg₁ : getR m₁ (nextVal d asm seg) with
    | none =>
      have hg₂ : getR m₂ (nextVal d asm seg) = none :=
        (h.getR_none_iff _).mp hg₁
      unfold segNode
      rw [hg₁, hg₂]
      exact .mk _ _ _ _ _ _ (ih (some (nextVal d asm seg)) (FEquiv_refl _))
    | some n₁ =>
      obtain ⟨n₂, hg₂, hn⟩ := h.getR_some_of hg₁
      cases n₁ with
      | mk t₁ v key c₁ =>
        cases hn with
        | mk _ t₂ _ _ _ c₂ hc =>
          unfold segNode
          rw [hg₁, hg₂]
          exact .mk _ _ _ _ _ _ (ih (some (nextVal d asm seg)) hc)

lemma FEquiv_ensureChild (v t : JStr) {m₁ m₂ : NodeRecord} (h : FEquiv m₁ m₂) :
    FEquiv (ensureChild m₁ v t) (ensureChild m₂ v t) := by
  unfold ensureChild
  cases hg₁ : getR m₁ v with
  | none =>
    have hg₂ : getR m₂ v = none := (h.getR_none_iff v).mp hg₁
    rw [hg₂]
    exact FEquiv_setR h (NEquiv_refl _)
  | some n₁ =>
    obtain ⟨n₂, hg₂, _⟩ := h.getR_some_of hg₁
    rw [hg₂]
    exact h

lemma FEquiv_processOption (d : Char) (o : TreeOption) {m₁ m₂ : NodeRecord}
    (h : FEquiv m₁ m₂) :
    FEquiv (processOption d m₁ o) (processOption d m₂ o) := by
  obtain ⟨label, value⟩ := o
  cases value with
  | str s =>
    simp only [processOption]
    split
    · exact h
    · split
      · exact h
      · exact FEquiv_insertParts d label _ [] h
  | num k => exact h
  | null => exact h

lemma FEquiv_processPath (p : JStr) {m₁ m₂ : NodeRecord} (h : FEquiv m₁ m₂) :
    FEquiv (processPath m₁ p) (processPath m₂ p) := by
  simp only [processPath]
  split
  · exact FEquiv_ensureChild p p h
  · exact FEquiv_insertSegs _ _ _ h

lemma segNode_none (d : Char) (asm : Option JStr) (seg : JStr) (rest : List JStr)
    (m : NodeRecord) (hg : getR m (nextVal d asm seg) = none) :
    segNode d asm seg rest m =
      .mk seg (nextVal d asm seg) (nextVal d asm seg)
        (insertSegs d (some (nextVal d asm seg)) rest .nil) := by
  unfold segNode
  rw [hg]

lemma segNode_some (d : Char) (asm : Option JStr) (seg : JStr) (rest : List JStr)
    (m : NodeRecord) (t v key : JStr) (cs : NodeRecord)
    (hg : getR m (nextVal d asm seg) = some (.mk t v key cs)) :
    segNode d asm seg rest m =
      .mk t v key (insertSegs d (some (nextVal d asm seg)) rest cs) := by
  unfold segNode
  rw [hg]

lemma insertSegs_comm :
    ∀ (s₁ : List JStr) (d₁ : Char) (a₁ : Option JStr)
      (s₂ : List JStr) (d₂ : Char) (a₂ : Option JStr) (m : NodeRecord),
      FEquiv (insertSegs d₁ a₁ s₁ (insertSegs d₂ a₂ s₂ m))
             (insertSegs d₂ a₂ s₂ (insertSegs d₁ a₁ s₁ m)) := by
  intro s₁
  induction s₁ with
  | nil => intro d₁ a₁ s₂ d₂ a₂ m; exact FEquiv_refl _
  | cons g₁ r₁ ih =>
    intro d₁ a₁ s₂ d₂ a₂ m
    cases s₂ with
    | nil => exact FEquiv_refl _
    | cons g₂ r₂ =>
      by_cases hk : nextVal d₁ a₁ g₁ = nextVal d₂ a₂ g₂
      · simp only [insertSegs_cons_eq]
        cases hg : getR m (nextVal d₂ a₂ g₂) with
        | none =>
          have hg₁ : getR m (nextVal d₁ a₁ g₁) = none := by rw [hk]; exact hg
          rw [segNode_none d₂ a₂ g₂ r₂ m hg, segNode_none d₁ a₁ g₁ r₁ m hg₁]
          have hgB : getR (setR m (nextVal d₂ a₂ g₂)
              (InternalNode.mk g₂ (nextVal d₂ a₂ g₂) (nextVal d₂ a₂ g₂)
                (insertSegs d₂ (some (nextVal d₂ a₂ g₂)) r₂ .nil)))
              (nextVal d₁ a₁ g₁) =
              some (InternalNode.mk g₂ (nextVal d₂ a₂ g₂) (nextVal d₂ a₂ g₂)
                (insertSegs d₂ (some (nextVal d₂ a₂ g₂)) r₂ .nil)) := by
            rw [hk]; exact getR_setR_same _ _ _
          have hgA : getR (setR m (nextVal d₁ a₁ g₁)
              (InternalNode.mk g₁ (nextVal d₁ a₁ g₁) (nextVal d₁ a₁ g₁)
                (insertSegs d₁ (some (nextVal d₁ a₁ g₁)) r₁ .nil)))
              (nextVal d₂ a₂ g₂) =
              some (InternalNode.mk g₁ (nextVal d₁ a₁ g₁) (nextVal d₁ a₁ g₁)
                (insertSegs d₁ (some (nextVal d₁ a₁ g₁)) r₁ .nil)) := by
            rw [← hk]; exact getR_setR_same _ _ _
          rw [segNode_some d₁ a₁ g₁ r₁ _ _ _ _ _ hgB,
              segNode_some d₂ a₂ g₂ r₂ _ _ _ _ _ hgA]
          rw [hk, setR_setR, setR_setR]
          refine FEquiv_setR (FEquiv_refl m) ?_
          exact .mk _ _ _ _ _ _ (by
            have := ih d₁ (some (nextVal d₁ a₁ g₁)) r₂ d₂ (some (nextVal d₂ a₂ g₂)) .nil
            rw [hk] at this
            exact this)
        | some n₀ =>
          cases n₀ with
          | mk t v key cs =>
            have hg₁ : getR m (nextVal d₁ a₁ g₁) = some (.mk t v key cs) := by
              rw [hk]; exact hg
            rw [segNode_some d₂ a₂ g₂ r₂ m t v key cs hg,
                segNode_some d₁ a₁ g₁ r₁ m t v key cs hg₁]
            have hgB : getR (setR m (nextVal d₂ a₂ g₂)
                (InternalNode.mk t v key (insertSegs d₂ (some (nextVal d₂ a₂ g₂)) r₂ cs)))
                (nextVal d₁ a₁ g₁) =
                some (InternalNode.mk t v key
                  (insertSegs d₂ (some (nextVal d₂ a₂ g₂)) r₂ cs)) := by
              rw [hk]; exact getR_setR_same _ _ _
            have hgA : getR (setR m (nextVal d₁ a₁ g₁)
                (InternalNode.mk t v key (insertSegs d₁ (some (nextVal d₁ a₁ g₁)) r₁ cs)))
                (nextVal d₂ a₂ g₂) =
                some (InternalNode.mk t v key
                  (insertSegs d₁ (some (nextVal d₁ a₁ g₁)) r₁ cs)) := by
              rw [← hk]; exact getR_setR_same _ _ _
            rw [segNode_some d₁ a₁ g₁ r₁ _ _ _ _ _ hgB,
                segNode_some d₂ a₂ g₂ r₂ _ _ _ _ _ hgA]
            rw [hk, setR_setR, setR_setR]
            refine FEquiv_setR (FEquiv_refl m) ?_
            exact .mk _ _ _ _ _ _ (by
              have := ih d₁ (some (nextVal d₁ a₁ g₁)) r₂ d₂ (some (nextVal d₂ a₂ g₂)) cs
              rw [hk] at this
              exact this)
      · simp only [insertSegs_cons_eq]
        have e₁ : segNode d₁ a₁ g₁ r₁
            (setR m (nextVal d₂ a₂ g₂) (segNode d₂ a₂ g₂ r₂ m)) =
            segNode d₁ a₁ g₁ r₁ m :=
          segNode_lookup_congr d₁ a₁ g₁ r₁
            (getR_setR_ne m (nextVal d₂ a₂ g₂) (nextVal d₁ a₁ g₁) _ hk)
        have e₂ : segNode d₂ a₂ g₂ r₂
            (setR m (nextVal d₁ a₁ g₁) (segNode d₁ a₁ g₁ r₁ m)) =
            segNode d₂ a₂ g₂ r₂ m :=
          segNode_lookup_congr d₂ a₂ g₂ r₂
            (getR_setR_ne m (nextVal d₁ a₁ g₁) (nextVal d₂ a₂ g₂) _ (Ne.symm hk))
        rw [e₁, e₂]
        exact setR_comm _ _ (Ne.symm hk)

lemma walkNode_none (d : Char) (label : JStr) (done : List JStr) (part : JStr)
    (rest : List JStr) (m : NodeRecord) (hg : getR m part = none) :
    walkNode d label done part rest m =
      .mk (if rest = [] then label else part)
        (joinD d (done ++ [part])) (joinD d (done ++ [part]))
        (insertParts d label (done ++ [part]) rest .nil) := by
  unfold walkNode
  rw [hg]

lemma walkNode_some (d : Char) (label : JStr) (done : List JStr) (part : JStr)
    (rest : List JStr) (m : NodeRecord) (t v key : JStr) (cs : NodeRecord)
    (hg : getR m part = some (.mk t v key cs)) :
    walkNode d label done part rest m =
      .mk (if rest = [] then label else t) v key
        (insertParts d label (done ++ [part]) rest cs) := by
  unfold walkNode
  rw [hg]

lemma insertParts_comm (d : Char) :
    ∀ (p : List JStr) (la : JStr) (q : List JStr) (lb : JStr)
      (done : List JStr) (m : NodeRecord),
      FEquiv (insertParts d la done p (insertParts d lb done q m))
             (insertParts d lb done q (insertParts d la done p m)) := by
  intro p
  induction p with
  | nil => intro la q lb done m; exact FEquiv_refl _
  | cons g₁ r₁ ih =>
    intro la q lb done m
    cases q with
    | nil => exact FEquiv_refl _
    | cons g₂ r₂ =>
      by_cases hk : g₁ = g₂
      · subst hk
        simp only [insertParts_cons_eq]
        cases hg : getR m g₁ with
        | none =>
          rw [walkNode_none d lb done g₁ r₂ m hg, walkNode_none d la done g₁ r₁ m hg]
          have hgB : getR (setR m g₁
              (InternalNode.mk (if r₂ = [] then lb else g₁)
                (joinD d (done ++ [g₁])) (joinD d (done ++ [g₁]))
                (insertParts d lb (done ++ [g₁]) r₂ .nil))) g₁ =
              some (InternalNode.mk (if r₂ = [] then lb else g₁)
                (joinD d (done ++ [g₁])) (joinD d (done ++ [g₁]))
                (insertParts d lb (done ++ [g₁]) r₂ .nil)) :=
            getR_setR_same _ _ _
          have hgA : getR (setR m g₁
              (InternalNode.mk (if r₁ = [] then la else g₁)
                (joinD d (done ++ [g₁])) (joinD d (done ++ [g₁]))
                (insertParts d la (done ++ [g₁]) r₁ .nil))) g₁ =
              some (InternalNode.mk (if r₁ = [] then la else g₁)
                (joinD d (done ++ [g₁])) (joinD d (done ++ [g₁]))
                (insertParts d la (done ++ [g₁]) r₁ .nil)) :=
            getR_setR_same _ _ _
          rw [walkNode_some d la done g₁ r₁ _ _ _ _ _ hgB,
              walkNode_some d lb done g₁ r₂ _ _ _ _ _ hgA]
          rw [setR_setR, setR_setR]
          refine FEquiv_setR (FEquiv_refl m) ?_
          exact .mk _ _ _ _ _ _ (ih la r₂ lb (done ++ [g₁]) .nil)
        | some n₀ =>
          cases n₀ with
          | mk t v key cs =>
            rw [walkNode_some d lb done g₁ r₂ m t v key cs hg,
                walkNode_some d la done g₁ r₁ m t v key cs hg]
            have hgB : getR (setR m g₁
                (InternalNode.mk (if r₂ = [] then lb else t) v key
                  (insertParts d lb (done ++ [g₁]) r₂ cs))) g₁ =
                some (InternalNode.mk (if r₂ = [] then lb else t) v key
                  (insertParts d lb (done ++ [g₁]) r₂ cs)) :=
              getR_setR_same _ _ _
            have hgA : getR (setR m g₁
                (InternalNode.mk (if r₁ = [] then la else t) v key
                  (insertParts d la (done ++ [g₁]) r₁ cs))) g₁ =
                some (InternalNode.mk (if r₁ = [] then la else t) v key
                  (insertParts d la (done ++ [g₁]) r₁ cs)) :=
              getR_setR_same _ _ _
            rw [walkNode_some d la done g₁ r₁ _ _ _ _ _ hgB,
                walkNode_some d lb done g₁ r₂ _ _ _ _ _ hgA]
            rw [setR_setR, setR_setR]
            refine FEquiv_setR (FEquiv_refl m) ?_
            exact .mk _ _ _ _ _ _ (ih la r₂ lb (done ++ [g₁]) cs)
      · simp only [insertParts_cons_eq]
        have e₁ : walkNode d la done g₁ r₁
            (setR m g₂ (walkNode d lb done g₂ r₂ m)) =
            walkNode d la done g₁ r₁ m :=
          walkNode_lookup_congr d la done g₁ r₁ (getR_setR_ne m g₂ g₁ _ hk)
        have e₂ : walkNode d lb done g₂ r₂
            (setR m g₁ (walkNode d la done g₁ r₁ m)) =
            walkNode d lb done g₂ r₂ m :=
          walkNode_lookup_congr d lb done g₂ r₂ (getR_setR_ne m g₁ g₂ _ (Ne.symm hk))
        rw [e₁, e₂]
        exact setR_comm _ _ (Ne.symm hk)

lemma processOption_cases (d : Char) (o : TreeOption) :
    (∀ m, processOption d m o = m) ∨
    (∃ s, o.value = .str s ∧ partsOfStr d s ≠ [] ∧
      ∀ m, processOption d m o = insertParts d o.label [] (partsOfStr d s) m) := by
  obtain ⟨label, value⟩ := o
  cases value with
  | str s =>
    by_cases hp : partsOfStr d s = []
    · left
      intro m
      simp only [processOption]
      split
      · rfl
      · rw [if_pos (by simpa [partsOfStr] using hp)]
    · right
      exact ⟨s, rfl, hp, fun m => processOption_usable d m label s hp⟩
  | num k => left; intro m; rfl
  | null => left; intro m; rfl

lemma processOption_comm (d : Char) (a b : TreeOption) (m : NodeRecord) :
    FEquiv (processOption d (processOption d m a) b)
           (processOption d (processOption d m b) a) := by
  rcases processOption_cases d a with ha | ⟨sa, _, _, ha⟩
  · rw [ha, ha]
    exact FEquiv_refl _
  · rcases processOption_cases d b with hb | ⟨sb, _, _, hb⟩
    · rw [hb, hb]
      exact FEquiv_refl _
    · rw [ha, hb, hb, ha]
      exact insertParts_comm d (partsOfStr d sb) b.label (partsOfStr d sa) a.label [] m

lemma FEquiv_foldl_processOption (d : Char) (l : List TreeOption) :
    ∀ {m₁ m₂ : NodeRecord}, FEquiv m₁ m₂ →
      FEquiv (l.foldl (processOption d) m₁) (l.foldl (processOption d) m₂) := by
  induction l with
  | nil => intro m₁ m₂ h; exact h
  | cons o l ih => intro m₁ m₂ h; exact ih (FEquiv_processOption d o h)

lemma foldl_processOption_perm (d : Char) :
    ∀ {l₁ l₂ : List TreeOption}, l₁.Perm l₂ →
      ∀ {m₁ m₂ : NodeRecord}, FEquiv m₁ m₂ →
      FEquiv (l₁.foldl (processOption d) m₁) (l₂.foldl (processOption d) m₂) := by
  intro l₁ l₂ hp
  induction hp with
  | nil => intro m₁ m₂ h; exact h
  | cons o _ ih => intro m₁ m₂ h; exact ih (FEquiv_processOption d o h)
  | swap x y t =>
    intro m₁ m₂ h
    simp only [List.foldl_cons]
    refine FEquiv_foldl_processOption d t ?_
    refine FEquiv_trans _ _ _ (processOption_comm d y x m₁) ?_
    exact FEquiv_processOption d y (FEquiv_processOption d x h)
  | trans _ _ ih₁ ih₂ =>
    intro m₁ m₂ h
    exact FEquiv_trans _ _ _ (ih₁ (FEquiv_refl m₁)) (ih₂ h)

lemma ensureChild_eq_insertSegs (m : NodeRecord) (p : JStr) :
    ensureChild m p p = insertSegs '.' none [p] m := by
  unfold ensureChild
  cases hg : getR m p with
  | none =>
    have hg' : getR m (nextVal '.' none p) = none := by rw [nextVal_dot_none]; exact hg
    rw [insertSegs_cons_none '.' none p [] m hg']
    rw [nextVal_dot_none]
    rfl
  | some n =>
    cases n with
    | mk t v key cs =>
      have hg' : getR m (nextVal '.' none p) = some (.mk t v key cs) := by
        rw [nextVal_dot_none]; exact hg
      rw [insertSegs_cons_some '.' none p [] m t v key cs hg']
      rw [nextVal_dot_none]
      have : insertSegs '.' (some p) [] cs = cs := rfl
      rw [this]
      exact (setR_getR_self hg).symm

lemma processPath_eq_insertSegs (m : NodeRecord) (p : JStr) :
    processPath m p =
      insertSegs (pathDelimEff p) (pathAsmEff p) (pathSegsEff p) m := by
  unfold pathDelimEff pathAsmEff pathSegsEff
  cases hs : segsOf p with
  | nil =>
    have h1 : processPath m p = ensureChild m p p := by
      simp only [processPath]
      rw [if_pos (by simpa [segsOf] using hs)]
    rw [h1]
    exact ensureChild_eq_insertSegs m p
  | cons s rest =>
    have h1 : processPath m p =
        insertSegs (detectDelimiter p) (initAsm p) (segsOf p) m :=
      processPath_nondeg m p (by rw [hs]; simp)
    rw [h1, hs]

lemma processPath_comm (p₁ p₂ : JStr) (m : NodeRecord) :
    FEquiv (processPath (processPath m p₁) p₂)
           (processPath (processPath m p₂) p₁) := by
  simp only [processPath_eq_insertSegs]
  exact insertSegs_comm _ _ _ _ _ _ m

lemma FEquiv_foldl_processPath (l : List JStr) :
    ∀ {m₁ m₂ : NodeRecord}, FEquiv m₁ m₂ →
      FEquiv (l.foldl processPath m₁) (l.foldl processPath m₂) := by
  induction l with
  | nil => intro m₁ m₂ h; exact h
  | cons p l ih => intro m₁ m₂ h; exact ih (FEquiv_processPath p h)

lemma foldl_processPath_perm :
    ∀ {l₁ l₂ : List JStr}, l₁.Perm l₂ →
      ∀ {m₁ m₂ : NodeRecord}, FEquiv m₁ m₂ →
      FEquiv (l₁.foldl processPath m₁) (l₂.foldl processPath m₂) := by
  intro l₁ l₂ hp
  induction hp with
  | nil => intro m₁ m₂ h; exact h
  | cons p _ ih => intro m₁ m₂ h; exact ih (FEquiv_processPath p h)
  | swap x y t =>
    intro m₁ m₂ h
    simp only [List.foldl_cons]
    refine FEquiv_foldl_processPath t ?_
    refine FEquiv_trans _ _ _ (processPath_comm y x m₁) ?_
    exact FEquiv_processPath y (FEquiv_processPath x h)
  | trans _ _ ih₁ ih₂ =>
    intro m₁ m₂ h
    exact FEquiv_trans _ _ _ (ih₁ (FEquiv_refl m₁)) (ih₂ h)

lemma keysR_eraseR (m : NodeRecord) (q : JStr) :
    keysR (eraseR m q) = (keysR m).erase q := by
  induction m using NodeRecord.inductionOn with
  | nil => rfl
  | cons k n rest ih =>
    by_cases h : k = q
    · subst h
      simp [eraseR, keysR]
    · simp [eraseR, keysR, h, ih, List.erase_cons_tail, Ne.symm h]

lemma getR_eraseR_ne (m : NodeRecord) (k q : JStr) (h : q ≠ k) :
    getR (eraseR m k) q = getR m q := by
  induction m using NodeRecord.inductionOn with
  | nil => rfl
  | cons k' n rest ih =>
    by_cases hk : k' = k
    · subst hk
      simp [eraseR, getR, Ne.symm h]
    · by_cases hq : k' = q
      · simp [eraseR, getR, hk, hq, h]
      · simp [eraseR, getR, hk, hq, ih]

lemma edges_extract (parent : JStr) {m : NodeRecord} {q : JStr} {n : InternalNode}
    (hg : getR m q = some n) :
    (edgesForestR parent m).Perm
      (edgesNodeR parent n ++ edgesForestR parent (eraseR m q)) := by
  induction m using NodeRecord.inductionOn with
  | nil => simp [getR] at hg
  | cons k n' rest ih =>
    by_cases hk : k = q
    · subst hk
      have e : n' = n := by simpa [getR] using hg
      subst e
      simp only [eraseR, if_pos rfl, edgesForestR]
      exact List.Perm.refl _
    · simp only [getR, if_neg hk] at hg
      have := ih hg
      simp only [eraseR, if_neg hk, edgesForestR]
      refine List.Perm.trans (List.Perm.append_left (edgesNodeR parent n') this) ?_
      rw [← List.append_assoc, ← List.append_assoc]
      exact List.Perm.append_right _ List.perm_append_comm

lemma keysR_eraseR_perm (m : NodeRecord) (q : JStr) (hq : q ∈ keysR m) :
    (keysR m).Perm (q :: keysR (eraseR m q)) := by
  induction m using NodeRecord.inductionOn with
  | nil => simp [keysR] at hq
  | cons k n rest ih =>
    by_cases h : k = q
    · subst h
      simp [eraseR, keysR]
    · have hq' : q ∈ keysR rest := by
        simp only [keysR, List.mem_cons] at hq
        exact hq.resolve_left (fun he => h he.symm)
      have := ih hq'
      simp only [keysR, eraseR, if_neg h]
      exact (this.cons k).trans (List.Perm.swap q k _)

mutual
lemma edgesNodeR_perm_of_NEquiv : ∀ (parent : JStr) (n₁ n₂ : InternalNode),
    NEquiv n₁ n₂ → nodupKeysNode n₁ = true →
    (edgesNodeR parent n₁).Perm (edgesNodeR parent n₂)
  | parent, .mk t₁ v₁ k₁ c₁, n₂, h, hnd => by
    cases h with
    | mk _ t₂ _ _ _ c₂ hc =>
      simp only [edgesNodeR]
      exact List.Perm.cons _ (edgesForestR_perm_of_FEquiv v₁ c₁ c₂ hc hnd)
termination_by _ n₁ _ _ _ => sizeOf n₁
lemma edgesForestR_perm_of_FEquiv : ∀ (parent : JStr) (m₁ m₂ : NodeRecord),
    FEquiv m₁ m₂ → nodupKeysForest m₁ = true →
    (edgesForestR parent m₁).Perm (edgesForestR parent m₂)
  | parent, .nil, m₂, h, _ => by
    have hk : keysR m₂ = [] := (h.keys.symm).eq_nil
    cases m₂ with
    | nil => exact List.Perm.refl _
    | cons k n rest => simp [keysR] at hk
  | parent, .cons k n rest, m₂, h, hnd => by
    have hg₁ : getR (NodeRecord.cons k n rest) k = some n := by simp [getR]
    obtain ⟨n₂, hg₂, hne⟩ := h.getR_some_of hg₁
    simp only [nodupKeysForest, Bool.and_eq_true, decide_eq_true_iff] at hnd
    have hfe : FEquiv rest (eraseR m₂ k) := by
      refine FEquiv.mk _ _ ?_ ?_
      · have hmem₂ : k ∈ keysR m₂ := by
          by_contra hmem
          have hn := (getR_eq_none_iff m₂ k).mpr hmem
          rw [hn] at hg₂
          exact Option.noConfusion hg₂
        have h2 : (keysR m₂).Perm (k :: keysR (eraseR m₂ k)) :=
          keysR_eraseR_perm m₂ k hmem₂
        have h3 : (k :: keysR rest).Perm (k :: keysR (eraseR m₂ k)) :=
          (h.keys.trans h2)
        exact h3.cons_inv
      · intro q n₁' n₂' hq₁ hq₂
        have hqmem : q ∈ keysR rest := by
          by_contra hmem
          have hn := (getR_eq_none_iff rest q).mpr hmem
          rw [hn] at hq₁
          exact Option.noConfusion hq₁
        have hqk : q ≠ k := fun he => hnd.1.1 (he ▸ hqmem)
        have hq₁' : getR (NodeRecord.cons k n rest) q = some n₁' := by
          simpa [getR, Ne.symm hqk] using hq₁
        have hq₂' : getR m₂ q = some n₂' := by
          rw [← getR_eraseR_ne m₂ k q hqk]
          exact hq₂
        exact h.point hq₁' hq₂'
    refine List.Perm.trans ?_ (edges_extract parent hg₂).symm
    simp only [edgesForestR]
    exact List.Perm.append
      (edgesNodeR_perm_of_NEquiv parent n n₂ hne hnd.1.2)
      (edgesForestR_perm_of_FEquiv parent rest (eraseR m₂ k) hfe hnd.2)
termination_by _ m₁ _ _ _ => sizeOf m₁
end

mutual
lemma edgesNodeTN_convert : ∀ (parent : JStr) (n : InternalNode),
    edgesNodeTN parent (convertNode n) = edgesNodeR parent n
  | parent, .mk t v k cs => by
    simp only [convertNode, edgesNodeTN, edgesNodeR,
      edgesForestTN_convert v cs]
termination_by _ n => sizeOf n
lemma edgesForestTN_convert : ∀ (parent : JStr) (m : NodeRecord),
    edgesForestTN parent (convertForest m) = edgesForestR parent m
  | _, .nil => rfl
  | parent, .cons k n rest => by
    simp only [convertForest, edgesForestTN, edgesForestR,
      edgesNodeTN_convert parent n, edgesForestTN_convert parent rest]
termination_by _ m => sizeOf m
end

lemma perm_join {α : Type} : ∀ {l₁ l₂ : List (List α)}, l₁.Perm l₂ →
    l₁.flatten.Perm l₂.flatten := by
  intro l₁ l₂ hp
  induction hp with
  | nil => exact List.Perm.refl _
  | cons x _ ih => simpa only [List.flatten_cons] using ih.append_left x
  | swap x y t =>
    simp only [List.flatten_cons]
    rw [← List.append_assoc, ← List.append_assoc]
    exact List.Perm.append_right _ List.perm_append_comm
  | trans _ _ ih₁ ih₂ => exact ih₁.trans ih₂

lemma edgesForestTS_ofList (parent : JStr) :
    ∀ l : List TreeSelectDataNode,
      edgesForestTS parent (TSForest.ofList l) =
        (l.map (edgesNodeTS parent)).flatten := by
  intro l
  induction l with
  | nil => rfl
  | cons n rest ih => simp only [TSForest.ofList, edgesForestTS, List.map_cons,
      List.flatten_cons, ih]

mutual
lemma edgesNodeTS_toSorted : ∀ (parent : JStr) (n : InternalNode),
    (edgesNodeTS parent (toSortedNode n)).Perm (edgesNodeR parent n)
  | parent, .mk t v k cs => by
    simp only [toSortedNode, edgesNodeTS, edgesNodeR]
    refine List.Perm.cons _ ?_
    rw [edgesForestTS_ofList]
    refine (perm_join ((List.perm_insertionSort nodeLe _).map _)).trans ?_
    exact edgesJoin_toSortedList v cs
termination_by _ n => sizeOf n
lemma edgesJoin_toSortedList : ∀ (parent : JStr) (m : NodeRecord),
    (((toSortedList m).map (edgesNodeTS parent)).flatten).Perm
      (edgesForestR parent m)
  | _, .nil => List.Perm.refl _
  | parent, .cons k n rest => by
    simp only [toSortedList, List.map_cons, List.flatten_cons, edgesForestR]
    exact List.Perm.append (edgesNodeTS_toSorted parent n)
      (edgesJoin_toSortedList parent rest)
termination_by _ m => sizeOf m
end

lemma edgesTS_buildTreeSelectData (options : List TreeOption) (d : Char) :
    (edgesTS (buildTreeSelectData options d)).Perm
      (edgesForestR [] (buildInternal options d)) := by
  simp only [edgesTS, buildTreeSelectData, toSortedTree]
  rw [edgesForestTS_ofList]
  refine (perm_join ((List.perm_insertionSort nodeLe _).map _)).trans ?_
  exact edgesJoin_toSortedList [] (buildInternal options d)

lemma edgesTN_buildTreeData (values : List JStr) :
    edgesTN (buildTreeData values) =
      edgesForestR [] (buildTreeDataInternal values) := by
  simp only [edgesTN, buildTreeData, edgesForestTN_convert]

/-- Claim C4: for every two input entry lists that are permutations of
each other, each builder variant produces the same set of nodes — the
same (parent value, value, key) triples up to order, i.e. the same
values, keys and parent–child relationships — and re-running the same
variant on the same input yields a structurally equal tree; the remaining
difference is confined to child ordering (and, per claim C10, titles,
which depend on which equal-path entry comes last). -/
theorem claim_C4 :
    (∀ (options : List TreeOption) (d : Char),
        buildTreeSelectData options d = buildTreeSelectData options d) ∧
    (∀ values : List JStr, buildTreeData values = buildTreeData values) ∧
    (∀ (d : Char) (l₁ l₂ : List TreeOption), l₁.Perm l₂ →
        (edgesTS (buildTreeSelectData l₁ d)).Perm
          (edgesTS (buildTreeSelectData l₂ d))) ∧
    (∀ v₁ v₂ : List JStr, v₁.Perm v₂ →
        (edgesTN (buildTreeData v₁)).Perm (edgesTN (buildTreeData v₂))) := by
  refine ⟨fun _ _ => rfl, fun _ => rfl, ?_, ?_⟩
  · intro d l₁ l₂ hp
    have hfe : FEquiv (buildInternal l₁ d) (buildInternal l₂ d) :=
      foldl_processOption_perm d hp (FEquiv_refl _)
    refine (edgesTS_buildTreeSelectData l₁ d).trans ?_
    refine List.Perm.trans ?_ (edgesTS_buildTreeSelectData l₂ d).symm
    exact edgesForestR_perm_of_FEquiv [] _ _ hfe (nodupKeys_buildInternal l₁ d)
  · intro v₁ v₂ hp
    have hfe : FEquiv (buildTreeDataInternal v₁) (buildTreeDataInternal v₂) :=
      foldl_processPath_perm hp (FEquiv_refl _)
    rw [edgesTN_buildTreeData, edgesTN_buildTreeData]
    exact edgesForestR_perm_of_FEquiv [] _ _ hfe
      (nodupKeys_buildTreeDataInternal v₁)

/-- Witness for claim C4 at concrete permuted inputs. -/
theorem claim_C4_witness :
    (edgesTS (buildTreeSelectData
        [⟨js "A", .str (js "a/b")⟩, ⟨js "B", .str (js "a/c")⟩] '/')).Perm
      (edgesTS (buildTreeSelectData
        [⟨js "B", .str (js "a/c")⟩, ⟨js "A", .str (js "a/b")⟩] '/')) ∧
    (edgesTN (buildTreeData [js "a/b", js "x.y"])).Perm
      (edgesTN (buildTreeData [js "x.y", js "a/b"])) :=
  ⟨claim_C4.2.2.1 '/' _ _ (by decide), claim_C4.2.2.2 _ _ (by decide)⟩
